import Mathlib

/-!
Verification development for the `sdhc` package (files `SHCPostProc.py` and
`fcCalc.py`).  The post-processing pipeline `SHCPostProc.postProcess` is
embedded as a state machine over real-valued spectral curves; machine floats
are modelled as real numbers (exact arithmetic), `numpy` arrays as lists, and
the real-input FFT as the discrete Fourier sum over `ℂ`.  Fallible numpy
operations (reshape with a mismatched element count, indexing `oms_fft[1]`
when the grid has fewer than two bins, convolving with an empty kernel, and a
failing backup write) are modelled with `Except`.  The force-constant driver
`fcCalc.fcCalc` is embedded over `ℚ` with the external LAMMPS engine modelled
as a force law `F : coords → forces`, applied when `run 0` is issued.
-/

noncomputable section

/-- Configuration of a `postProcess` run: the attributes of `SHCPostProc`
that the chunk loop (lines 200-307 of `SHCPostProc.py`) reads.  `Kij i j` is
the force-constant matrix entry, `backup` says whether `backupPrefix` was set,
and `saveOk k` models whether the checkpoint write after chunk `k` succeeds
(the write is an external-storage effect). -/
structure PPConfig where
  NL : ℕ
  NR : ℕ
  idsL : List ℕ
  idsR : List ℕ
  Kij : ℕ → ℕ → ℝ
  sampleTimestep : ℝ
  scaleFactor : ℝ
  widthWin : ℝ
  chunkSize0 : ℕ
  NChunks0 : ℤ
  backup : Bool
  saveOk : ℕ → Bool

/-- Source: `NDOF = 3 * (self.NL + self.NR)` (line 200). -/
def NDOF (cfg : PPConfig) : ℕ := 3 * (cfg.NL + cfg.NR)

/-- Length of `np.fft.rfftfreq(n)`, i.e. `n // 2 + 1`. -/
def rfftLen (n : ℕ) : ℕ := n / 2 + 1

/-- Source: `np.fft.rfftfreq(chunkSize, d=sampleTimestep) * 2 * np.pi` (lines 202-203):
bin `k` is `k / (n * dt) * 2π`. -/
def omsFFT (n : ℕ) (dt : ℝ) : List ℝ :=
  (List.range (rfftLen n)).map fun k : ℕ => (k : ℝ) / ((n : ℝ) * dt) * (2 * Real.pi)

/-- Source: `np.reshape(velArray, (NDOF, chunkSize), order='F')` (line 238): entry
`(i, t)` of the reshaped array is element `i + t * NDOF` of the flat array. -/
def reshapeF (ndof : ℕ) (v : List ℝ) (i t : ℕ) : ℝ := v.getD (i + t * ndof) 0

/-- The primitive root `e^(-2πi/n)` used by the forward DFT. -/
def dftRoot (n : ℕ) : ℂ := Complex.exp (-(2 * Real.pi * Complex.I) / (n : ℂ))

/-- Bin `k` of `np.fft.rfft` of the length-`n` sequence `x`:
`X_k = ∑_t x_t e^(-2πi k t / n)` (line 241). -/
def rfftAt (n : ℕ) (x : ℕ → ℝ) (k : ℕ) : ℂ :=
  ∑ t in Finset.range n, (x t : ℂ) * dftRoot n ^ (k * t)

/-- Source: `velFFT = np.fft.rfft(velArray, axis=1) * sampleTimestep` (lines 241-242),
row `i`, bin `k`. -/
def velFFT (cfg : PPConfig) (n : ℕ) (v : List ℝ) (i k : ℕ) : ℂ :=
  rfftAt n (reshapeF (NDOF cfg) v i) k * (cfg.sampleTimestep : ℂ)

/-- Row `r` of `velsL` (lines 244-249): row `3*a + d` is `velFFT[3*ids_L[a] + d]`. -/
def velsL (cfg : PPConfig) (n : ℕ) (v : List ℝ) (r k : ℕ) : ℂ :=
  velFFT cfg n v (3 * cfg.idsL.getD (r / 3) 0 + r % 3) k

/-- Row `r` of `velsR` (lines 251-253). -/
def velsR (cfg : PPConfig) (n : ℕ) (v : List ℝ) (r k : ℕ) : ℂ :=
  velFFT cfg n v (3 * cfg.idsR.getD (r / 3) 0 + r % 3) k

/-- Source: `np.imag(np.dot(velsL[:, ki], np.dot(-Kij, np.conj(velsR[:, ki]))))`
(line 259). -/
def chunkSHCterm (cfg : PPConfig) (n : ℕ) (v : List ℝ) (ki : ℕ) : ℝ :=
  (∑ i in Finset.range (3 * cfg.NL),
      velsL cfg n v i ki *
        ∑ j in Finset.range (3 * cfg.NR),
          (-(cfg.Kij i j) : ℂ) * (starRingEnd ℂ) (velsR cfg n v j ki)).im

/-- The per-chunk unsmoothed spectral heat-current curve `SHC_orig`
(lines 256-271): bin 0 is left at its `np.zeros` value, bin `ki ≥ 1` is
`-2 * Im(...) / oms_fft[ki]`; afterwards the whole curve is divided by
`chunkSize * sampleTimestep` and multiplied by `scaleFactor`. -/
def chunkRaw (cfg : PPConfig) (oms : List ℝ) (n : ℕ) (v : List ℝ) : List ℝ :=
  (List.range oms.length).map fun ki =>
    (if ki = 0 then 0 else -2 * chunkSHCterm cfg n v ki / oms.getD ki 0) /
      ((n : ℝ) * cfg.sampleTimestep) * cfg.scaleFactor

/-- Source: `np.convolve(x, v, 'same')`: the centered slice of the full
convolution, of length `max(M, N)` (`M` the curve length, `N` the kernel
length), entry `j` being `∑_i x_i v_(j + (min(M,N)-1)/2 - i)` with
out-of-range kernel entries read as 0.  When the kernel is longer than the
curve the result is longer than the curve (which makes the aggregate update
in `postProcess` fail, see `ppLoop`).  `np.convolve` raises on an empty
input curve; that case is unreachable from `postProcess` (a spectral curve
has `chunkSize/2 + 1 ≥ 1` bins) and is mapped to the empty list. -/
def convSame (x v : List ℝ) : List ℝ :=
  if x.length = 0 then []
  else
    (List.range (max x.length v.length)).map fun j =>
      ∑ i in Finset.range x.length,
        x.getD i 0 *
          (if i ≤ j + (min x.length v.length - 1) / 2 then
            v.getD (j + (min x.length v.length - 1) / 2 - i) 0 else 0)

/-- Source: `SHCPostProc._smoothen` (lines 162-168): `Nwindow = np.ceil(widthWin/df)`,
the kernel is `np.ones(int(Nwindow)) / Nwindow`, applied with
`np.convolve(func, kernel, 'same')`.  When `int(Nwindow) ≤ 0` the call fails
(`np.ones` of a negative size, or `np.convolve` with an empty `v`, raises). -/
def smoothen (df : ℝ) (func : List ℝ) (widthWin : ℝ) : Option (List ℝ) :=
  if ⌈widthWin / df⌉ ≤ 0 then none
  else
    some (convSame func
      (List.replicate (⌈widthWin / df⌉).toNat (1 / ((⌈widthWin / df⌉ : ℤ) : ℝ))))

/-- Source: `df = (oms_fft[1] - oms_fft[0]) / (2 * np.pi)` (line 274). -/
def dfOf (oms : List ℝ) : ℝ := (oms.getD 1 0 - oms.getD 0 0) / (2 * Real.pi)

/-- The per-chunk smoothed curve: `self._smoothen(df, SHC, widthWin)`
(lines 274-275) applied to the raw curve of the chunk. -/
def chunkSmooth (cfg : PPConfig) (oms : List ℝ) (n : ℕ) (v : List ℝ) : Option (List ℝ) :=
  smoothen (dfOf oms) (chunkRaw cfg oms n v) cfg.widthWin

/-- The mutable state of the chunk loop: the attributes of `SHCPostProc`
that lines 200-307 update, plus the not-yet-consumed tail of the velocity
stream (the numbers after the file header). -/
structure PPState where
  chunkSize : ℕ
  NChunks : ℤ
  oms : List ℝ
  SHC_smooth : List ℝ
  SHC_smooth2 : List ℝ
  SHC_average : List ℝ
  SHC_error : Option (List ℝ)
  stream : List ℝ

/-- The chunk loop of `postProcess` (lines 212-298).  The fuel is the number
of remaining iterations of `np.arange(self.NChunks)` (evaluated once at loop
entry), `k` the current chunk index.  A full-size read takes the normal path
(running-mean update, optional backup write); an empty read breaks with
`NChunks = k - 1`; a short read shrinks `chunkSize`, and either breaks with
`NChunks = k - 1` (when `k > 0`) or reshapes to the new size, recomputes the
frequency grid, seeds the aggregates from the single chunk and breaks with
`NChunks = 1` (when `k = 0`).  In the normal path the aggregate update
`self.SHC_smooth = (k * self.SHC_smooth + SHC) / (k + 1.0)` (line 278) is an
elementwise numpy operation: when the smoothed curve's length differs from
the aggregate's (the boxcar kernel is longer than the spectrum, so
`convSame` returned `max(M, N) > M` bins) numpy raises a broadcast
`ValueError`, modelled by the length check before the updates.  (Numpy
would broadcast a length-1 operand, but reaching the update requires at
least two frequency bins — the `oms_fft[1]` access — so both operands
always have length at least 2 along every reachable run.)  The `k = 0`
short-read path assigns the aggregates directly (lines 291-296), with no
broadcast. -/
def ppLoop (cfg : PPConfig) : ℕ → ℕ → PPState → Except String PPState
  | 0, _, st => Except.ok st
  | Nat.succ fuel, k, st =>
    let count := st.chunkSize * NDOF cfg
    let velArray := st.stream.take count
    let rest := st.stream.drop count
    if velArray.length = 0 then
      Except.ok { st with stream := rest, NChunks := (k : ℤ) - 1 }
    else if velArray.length ≠ count then
      let newCS := velArray.length / NDOF cfg
      if 0 < k then
        Except.ok { st with stream := rest, chunkSize := newCS, NChunks := (k : ℤ) - 1 }
      else
        let oms2 := omsFFT newCS cfg.sampleTimestep
        if velArray.length ≠ NDOF cfg * newCS then
          Except.error "ValueError: cannot reshape array"
        else if oms2.length < 2 then
          Except.error "IndexError: oms_fft"
        else
          match chunkSmooth cfg oms2 newCS velArray with
          | none => Except.error "ValueError: convolve kernel is empty"
          | some SHCs =>
            Except.ok { st with
              stream := rest,
              chunkSize := newCS,
              oms := oms2,
              SHC_smooth := SHCs,
              SHC_smooth2 := SHCs.map (fun x => x ^ 2),
              SHC_average := chunkRaw cfg oms2 newCS velArray,
              NChunks := 1 }
    else
      if st.oms.length < 2 then
        Except.error "IndexError: oms_fft"
      else
        match chunkSmooth cfg st.oms st.chunkSize velArray with
        | none => Except.error "ValueError: convolve kernel is empty"
        | some SHCs =>
          if SHCs.length ≠ st.SHC_smooth.length then
            Except.error "ValueError: operands could not be broadcast together"
          else
          let st' := { st with
            stream := rest,
            SHC_smooth := List.zipWith
              (fun o x => ((k : ℝ) * o + x) / ((k : ℝ) + 1)) st.SHC_smooth SHCs,
            SHC_smooth2 := List.zipWith
              (fun o x => ((k : ℝ) * o + x ^ 2) / ((k : ℝ) + 1)) st.SHC_smooth2 SHCs,
            SHC_average := List.zipWith
              (fun o x => ((k : ℝ) * o + x) / ((k : ℝ) + 1)) st.SHC_average
              (chunkRaw cfg st.oms st.chunkSize velArray) }
          if cfg.backup && !(cfg.saveOk k) then
            Except.error "IOError: backup write failed"
          else ppLoop cfg fuel (k + 1) st'

/-- Finalization (lines 300-307): when the completed chunk count is `> 1`,
`SHC_error` is `sqrt((N/(N-1)) * (SHC_smooth2 - SHC_smooth^2)) / sqrt(N)`
elementwise; otherwise `SHC_error = None`. -/
def ppFinalize (st : PPState) : PPState :=
  if 1 < st.NChunks then
    { st with SHC_error := some (List.zipWith
        (fun m2 m =>
          Real.sqrt (((st.NChunks : ℝ) / ((st.NChunks : ℝ) - 1)) * (m2 - m ^ 2)) /
            Real.sqrt (st.NChunks : ℝ))
        st.SHC_smooth2 st.SHC_smooth) }
  else { st with SHC_error := none }

/-- Source: `postProcess` from line 200 on: build the frequency grid, zero-initialize
the three aggregate curves, run the chunk loop over `vels` (the numbers of
the compact velocity file after its header), then compute the error
estimate. -/
def postProcess (cfg : PPConfig) (vels : List ℝ) : Except String PPState :=
  Except.map ppFinalize (ppLoop cfg cfg.NChunks0.toNat 0
    { chunkSize := cfg.chunkSize0
      NChunks := cfg.NChunks0
      oms := omsFFT cfg.chunkSize0 cfg.sampleTimestep
      SHC_smooth := List.replicate (omsFFT cfg.chunkSize0 cfg.sampleTimestep).length 0
      SHC_smooth2 := List.replicate (omsFFT cfg.chunkSize0 cfg.sampleTimestep).length 0
      SHC_average := List.replicate (omsFFT cfg.chunkSize0 cfg.sampleTimestep).length 0
      SHC_error := none
      stream := vels })

/-- Pointwise arithmetic mean of a list of curves, truncated/padded to `nf`
frequency bins (missing entries read as 0); the mean of zero curves is the
zero curve (`x / 0 = 0` in Lean). -/
def curveMean (ls : List (List ℝ)) (nf : ℕ) : List ℝ :=
  (List.range nf).map fun j => (ls.map fun c => c.getD j 0).sum / (ls.length : ℝ)

end

noncomputable section

/-- Any list equals the table of its `getD` values over `range length`. -/
theorem map_range_getD (x : List ℝ) :
    (List.range x.length).map (fun j => x.getD j 0) = x := by
  apply List.ext_get
  · simp
  · intro i h1 h2
    simp only [List.get_eq_getElem, List.getElem_map, List.getElem_range]
    simp only [List.length_map, List.length_range] at h1
    exact List.getD_eq_getElem x 0 h2

/-- Source: `convSame` with the one-point kernel `[1]` is the identity. -/
theorem convSame_one (x : List ℝ) : convSame x [(1 : ℝ)] = x := by
  rcases x with _ | ⟨a, xs⟩
  · rfl
  · unfold convSame
    rw [if_neg (by simp)]
    have hmax : max (a :: xs).length [(1 : ℝ)].length = (a :: xs).length := by
      simp only [List.length_singleton, List.length_cons, List.length_nil]
      omega
    have hmin : min (a :: xs).length [(1 : ℝ)].length = 1 := by
      simp only [List.length_singleton, List.length_cons, List.length_nil]
      omega
    rw [hmax, hmin]
    simp only [Nat.sub_self, Nat.zero_div, Nat.add_zero]
    have h : ∀ j ∈ List.range (a :: xs).length,
        (∑ i in Finset.range (a :: xs).length,
          (a :: xs).getD i 0 * (if i ≤ j then [(1:ℝ)].getD (j - i) 0 else 0))
          = (a :: xs).getD j 0 := by
      intro j hj
      have hsum : ∀ i ∈ Finset.range (a :: xs).length,
          (a :: xs).getD i 0 * (if i ≤ j then [(1:ℝ)].getD (j - i) 0 else 0)
            = if i = j then (a :: xs).getD i 0 else 0 := by
        intro i _
        rcases eq_or_ne i j with rfl | hne
        · simp
        · rcases lt_or_le i j with hlt | hge
          · rw [if_pos (le_of_lt hlt), if_neg hne]
            rcases Nat.exists_eq_succ_of_ne_zero (Nat.sub_ne_zero_of_lt hlt) with ⟨m, hm⟩
            rw [hm]
            simp
          · have hgt : j < i := lt_of_le_of_ne hge (Ne.symm hne)
            rw [if_neg (not_le.mpr hgt), if_neg hne, mul_zero]
      rw [Finset.sum_congr rfl hsum,
        Finset.sum_ite_eq' (Finset.range (a :: xs).length) j (fun i => (a :: xs).getD i 0),
        if_pos (by simpa using hj)]
    rw [List.map_congr_left h, map_range_getD]

/-- The ceiling of `widthWin / df` is 1 when `0 < widthWin ≤ df`. -/
theorem ceil_ratio_eq_one {widthWin df : ℝ} (h0 : 0 < widthWin) (h1 : widthWin ≤ df) :
    ⌈widthWin / df⌉ = 1 := by
  have hdf : 0 < df := lt_of_lt_of_le h0 h1
  rw [Int.ceil_eq_iff]
  constructor
  · push_cast
    have : 0 < widthWin / df := div_pos h0 hdf
    linarith
  · push_cast
    exact (div_le_one hdf).mpr h1

/-- C6 (amended): for every curve and every `windowWidth` with
`0 < windowWidth ≤ binSpacing` the smoother returns the curve unchanged, and
whenever the kernel length `⌈windowWidth / binSpacing⌉` is positive the boxcar
kernel is normalized to sum to 1.  (The original claim quantified over all
`windowWidth ≤ binSpacing`; at `windowWidth = 0` the code instead fails — the
kernel `np.ones(0)` is empty and `np.convolve` raises — and a kernel length of
0 or less is an error rather than being clamped to a minimum length 1.) -/
theorem c6_smoothen_identity :
    (∀ (df : ℝ) (func : List ℝ) (widthWin : ℝ), 0 < widthWin → widthWin ≤ df →
        smoothen df func widthWin = some func) ∧
    ∀ (df : ℝ) (_func : List ℝ) (widthWin : ℝ), 0 < ⌈widthWin / df⌉ →
      (List.replicate (⌈widthWin / df⌉).toNat
          (1 / ((⌈widthWin / df⌉ : ℤ) : ℝ))).sum = 1 := by
  constructor
  · intro df func widthWin h0 h1
    unfold smoothen
    rw [ceil_ratio_eq_one h0 h1]
    norm_num [convSame_one]
  · intro df _func widthWin hm
    rw [List.sum_replicate, nsmul_eq_mul]
    have hcast : (((⌈widthWin / df⌉).toNat : ℕ) : ℝ) = ((⌈widthWin / df⌉ : ℤ) : ℝ) := by
      rw [← Int.cast_natCast]
      norm_cast
      exact Int.toNat_of_nonneg (le_of_lt hm)
    rw [hcast]
    have hne : ((⌈widthWin / df⌉ : ℤ) : ℝ) ≠ 0 := by
      have : (0 : ℝ) < ((⌈widthWin / df⌉ : ℤ) : ℝ) := by exact_mod_cast hm
      exact ne_of_gt this
    field_simp

/-- C6 counterexample: at `windowWidth = 0 ≤ 1 = binSpacing` the smoother
fails (`np.ones(0)` gives an empty kernel and `np.convolve` raises) instead of
returning the curve `[1]` unchanged. -/
theorem c6_smoothen_counterexample : smoothen 1 [(1 : ℝ)] 0 = none := by
  unfold smoothen
  norm_num

/-- Witness for `c6_smoothen_identity` at `df = 1`, curve `[2, 5]`,
`windowWidth = 1`. -/
theorem c6_smoothen_witness :
    smoothen 1 [(2 : ℝ), 5] 1 = some [(2 : ℝ), 5] ∧
      (List.replicate (⌈(1 : ℝ) / 1⌉).toNat (1 / ((⌈(1 : ℝ) / 1⌉ : ℤ) : ℝ))).sum = 1 :=
  ⟨c6_smoothen_identity.1 1 [(2 : ℝ), 5] 1 (by norm_num) (by norm_num),
   c6_smoothen_identity.2 1 [(2 : ℝ), 5] 1 (by norm_num)⟩


/-- Source: `getD` value of a `map` over `range`. -/
theorem getD_map_range (f : ℕ → ℝ) (m i : ℕ) :
    ((List.range m).map f).getD i 0 = if i < m then f i else 0 := by
  by_cases h : i < m
  · rw [if_pos h, List.getD_eq_getElem _ _ (by simpa using h)]
    simp
  · rw [if_neg h, List.getD_eq_default]
    simpa using h

/-- Source: `getD` of a replicated-zero list is 0 at every index. -/
theorem getD_replicate_zero (m j : ℕ) : (List.replicate m (0 : ℝ)).getD j 0 = 0 := by
  by_cases h : j < m
  · rw [List.getD_eq_getElem _ _ (by simpa using h)]
    simp
  · rw [List.getD_eq_default]
    simpa using h

/-- Source: `convSame` on a non-empty curve has numpy's `'same'` output
length `max(M, N)`; on the empty curve it is empty. -/
theorem convSame_length (x v : List ℝ) :
    (convSame x v).length = if x.length = 0 then 0 else max x.length v.length := by
  unfold convSame
  by_cases h : x.length = 0
  · rw [if_pos h, if_pos h]
    rfl
  · rw [if_neg h, if_neg h]
    simp

/-- Source: `smoothen` succeeds when the window width and the bin spacing are
positive; if moreover the boxcar kernel is no longer than the input curve,
the result has the length of the input curve. -/
theorem smoothen_isSome {df widthWin : ℝ} (hdf : 0 < df) (hw : 0 < widthWin)
    (func : List ℝ) (hker : (⌈widthWin / df⌉).toNat ≤ func.length) :
    ∃ s, smoothen df func widthWin = some s ∧ s.length = func.length := by
  have hm : 0 < ⌈widthWin / df⌉ := Int.ceil_pos.mpr (div_pos hw hdf)
  refine ⟨convSame func
      (List.replicate (⌈widthWin / df⌉).toNat (1 / ((⌈widthWin / df⌉ : ℤ) : ℝ))), ?_, ?_⟩
  · unfold smoothen
    rw [if_neg (not_le.mpr hm)]
  · rw [convSame_length]
    rw [if_neg (by omega)]
    simp only [List.length_replicate]
    omega

/-- Source: on a non-empty curve `smoothen` always succeeds for positive
window width and bin spacing, returning numpy's `'same'` output of length
`max(curve length, kernel length)` — longer than the curve when the boxcar
kernel is longer. -/
theorem smoothen_isSome_long {df widthWin : ℝ} (hdf : 0 < df) (hw : 0 < widthWin)
    (func : List ℝ) (hfl : func.length ≠ 0) :
    ∃ s, smoothen df func widthWin = some s ∧
      s.length = max func.length (⌈widthWin / df⌉).toNat := by
  have hm : 0 < ⌈widthWin / df⌉ := Int.ceil_pos.mpr (div_pos hw hdf)
  refine ⟨convSame func
      (List.replicate (⌈widthWin / df⌉).toNat (1 / ((⌈widthWin / df⌉ : ℤ) : ℝ))), ?_, ?_⟩
  · unfold smoothen
    rw [if_neg (not_le.mpr hm)]
  · rw [convSame_length, if_neg hfl]
    simp only [List.length_replicate]

/-- Length of the frequency grid. -/
theorem omsFFT_length (n : ℕ) (dt : ℝ) : (omsFFT n dt).length = n / 2 + 1 := by
  unfold omsFFT rfftLen
  rw [List.length_map, List.length_range]

/-- For `n ≥ 2` and `dt > 0` the bin spacing computed by the loop is
`1 / (n * dt)`, which is positive. -/
theorem dfOf_omsFFT {n : ℕ} (h2 : 2 ≤ n) {dt : ℝ} (hdt : 0 < dt) :
    dfOf (omsFFT n dt) = 1 / ((n : ℝ) * dt) ∧ 0 < dfOf (omsFFT n dt) := by
  have hlen : 1 < (rfftLen n) := by
    unfold rfftLen
    have : 1 ≤ n / 2 := Nat.one_le_div_iff (by norm_num) |>.mpr h2
    omega
  have h1 : (omsFFT n dt).getD 1 0 = (1 : ℝ) / ((n : ℝ) * dt) * (2 * Real.pi) := by
    unfold omsFFT
    rw [getD_map_range _ _ _, if_pos hlen]
    norm_num
  have h0 : (omsFFT n dt).getD 0 0 = 0 := by
    unfold omsFFT
    rw [getD_map_range _ _ _, if_pos (by omega)]
    norm_num
  have hn : (0 : ℝ) < (n : ℝ) := by exact_mod_cast lt_of_lt_of_le (by norm_num) h2
  have heq : dfOf (omsFFT n dt) = 1 / ((n : ℝ) * dt) := by
    unfold dfOf
    rw [h1, h0]
    have hpi : (2 * Real.pi) ≠ 0 := by positivity
    field_simp
    ring
  exact ⟨heq, heq ▸ by positivity⟩


/-- One loop iteration on a full-size chunk `c` takes the normal path:
running-mean updates of the three aggregates, then recursion at `k + 1`. -/
theorem ppLoop_step_full (cfg : PPConfig) (fuel k : ℕ) (st : PPState) (c rest : List ℝ)
    (SHCs : List ℝ)
    (hstream : st.stream = c ++ rest)
    (hlen : c.length = st.chunkSize * NDOF cfg)
    (hpos : c.length ≠ 0)
    (homs : 2 ≤ st.oms.length)
    (hsm : chunkSmooth cfg st.oms st.chunkSize c = some SHCs)
    (hbl : SHCs.length = st.SHC_smooth.length)
    (hsave : cfg.backup = true → cfg.saveOk k = true) :
    ppLoop cfg (fuel + 1) k st = ppLoop cfg fuel (k + 1) { st with
      stream := rest
      SHC_smooth := List.zipWith
        (fun o x => ((k : ℝ) * o + x) / ((k : ℝ) + 1)) st.SHC_smooth SHCs
      SHC_smooth2 := List.zipWith
        (fun o x => ((k : ℝ) * o + x ^ 2) / ((k : ℝ) + 1)) st.SHC_smooth2 SHCs
      SHC_average := List.zipWith
        (fun o x => ((k : ℝ) * o + x) / ((k : ℝ) + 1)) st.SHC_average
        (chunkRaw cfg st.oms st.chunkSize c) } := by
  have htake : st.stream.take (st.chunkSize * NDOF cfg) = c := by
    rw [hstream, ← hlen, List.take_left]
  have hdrop : st.stream.drop (st.chunkSize * NDOF cfg) = rest := by
    rw [hstream, ← hlen, List.drop_left]
  have hback : (cfg.backup && !(cfg.saveOk k)) = false := by
    cases hb : cfg.backup
    · simp
    · simp [hsave hb]
  simp only [ppLoop]
  rw [htake, hdrop, if_neg hpos, if_neg (not_ne_iff.mpr hlen),
    if_neg (not_lt.mpr homs), hsm]
  simp only [hback, hbl]
  simp

/-- One loop iteration on a full-size chunk whose smoothed curve is longer
than the aggregate (the boxcar kernel is longer than the spectrum): the
elementwise update `(k * SHC_smooth + SHC) / (k + 1)` raises numpy's
broadcast `ValueError` and the run aborts. -/
theorem ppLoop_step_broadcast_fail (cfg : PPConfig) (fuel k : ℕ) (st : PPState)
    (c rest : List ℝ) (SHCs : List ℝ)
    (hstream : st.stream = c ++ rest)
    (hlen : c.length = st.chunkSize * NDOF cfg)
    (hpos : c.length ≠ 0)
    (homs : 2 ≤ st.oms.length)
    (hsm : chunkSmooth cfg st.oms st.chunkSize c = some SHCs)
    (hbl : SHCs.length ≠ st.SHC_smooth.length) :
    ppLoop cfg (fuel + 1) k st =
      Except.error "ValueError: operands could not be broadcast together" := by
  have htake : st.stream.take (st.chunkSize * NDOF cfg) = c := by
    rw [hstream, ← hlen, List.take_left]
  simp only [ppLoop]
  rw [htake, if_neg hpos, if_neg (not_ne_iff.mpr hlen), if_neg (not_lt.mpr homs), hsm]
  simp [hbl]

/-- One loop iteration on an exhausted stream: break with `NChunks = k - 1`. -/
theorem ppLoop_step_exhausted (cfg : PPConfig) (fuel k : ℕ) (st : PPState)
    (hstream : st.stream = []) :
    ppLoop cfg (fuel + 1) k st =
      Except.ok { st with stream := [], NChunks := (k : ℤ) - 1 } := by
  simp only [ppLoop]
  rw [hstream]
  simp

/-- One loop iteration on a short non-empty read at `k > 0`: the chunk is
discarded, `chunkSize` is shrunk, and the loop breaks with `NChunks = k - 1`. -/
theorem ppLoop_step_short_discard (cfg : PPConfig) (fuel k : ℕ) (st : PPState)
    (hne : st.stream.length ≠ 0)
    (hlt : st.stream.length < st.chunkSize * NDOF cfg)
    (hk : 0 < k) :
    ppLoop cfg (fuel + 1) k st =
      Except.ok { st with
        stream := []
        chunkSize := st.stream.length / NDOF cfg
        NChunks := (k : ℤ) - 1 } := by
  have htake : st.stream.take (st.chunkSize * NDOF cfg) = st.stream :=
    List.take_of_length_le (le_of_lt hlt)
  have hdrop : st.stream.drop (st.chunkSize * NDOF cfg) = [] :=
    List.drop_eq_nil_of_le (le_of_lt hlt)
  simp only [ppLoop]
  rw [htake, hdrop, if_neg hne, if_pos (ne_of_lt hlt), if_pos hk]

/-- One loop iteration on a short non-empty read at `k = 0` whose element
count is not a multiple of `NDOF`: the reshape to the shrunken chunk size is
impossible and the run fails. -/
theorem ppLoop_step_short_reshape_fails (cfg : PPConfig) (fuel : ℕ) (st : PPState)
    (hne : st.stream.length ≠ 0)
    (hlt : st.stream.length < st.chunkSize * NDOF cfg)
    (hdvd : ¬ NDOF cfg ∣ st.stream.length) :
    ppLoop cfg (fuel + 1) 0 st = Except.error "ValueError: cannot reshape array" := by
  have htake : st.stream.take (st.chunkSize * NDOF cfg) = st.stream :=
    List.take_of_length_le (le_of_lt hlt)
  have hresh : st.stream.length ≠ NDOF cfg * (st.stream.length / NDOF cfg) := by
    intro h
    exact hdvd ⟨st.stream.length / NDOF cfg, h⟩
  simp only [ppLoop]
  rw [htake, if_neg hne, if_pos (ne_of_lt hlt), if_neg (lt_irrefl 0), if_pos hresh]


/-- The smoothed curve of a chunk as a total function (the value under the
`some` returned by `chunkSmooth` when it succeeds). -/
def chunkSmoothD (cfg : PPConfig) (oms : List ℝ) (n : ℕ) (v : List ℝ) : List ℝ :=
  (chunkSmooth cfg oms n v).getD []

/-- The raw per-chunk curve has one entry per frequency bin. -/
theorem chunkRaw_length (cfg : PPConfig) (oms : List ℝ) (n : ℕ) (v : List ℝ) :
    (chunkRaw cfg oms n v).length = oms.length := by
  unfold chunkRaw
  simp

/-- When the bin spacing and window width are positive and the boxcar
kernel is no longer than the frequency grid, `chunkSmooth` succeeds and
returns a curve with one entry per frequency bin. -/
theorem chunkSmooth_eq (cfg : PPConfig) (oms : List ℝ) (n : ℕ) (v : List ℝ)
    (hdf : 0 < dfOf oms) (hw : 0 < cfg.widthWin)
    (hker : (⌈cfg.widthWin / dfOf oms⌉).toNat ≤ oms.length) :
    chunkSmooth cfg oms n v = some (chunkSmoothD cfg oms n v) ∧
      (chunkSmoothD cfg oms n v).length = oms.length := by
  obtain ⟨s, hs, hl⟩ := smoothen_isSome hdf hw (chunkRaw cfg oms n v)
    (by rw [chunkRaw_length]; exact hker)
  have h1 : chunkSmooth cfg oms n v = some s := hs
  have h2 : chunkSmoothD cfg oms n v = s := by
    unfold chunkSmoothD
    rw [h1]
    rfl
  rw [h2]
  exact ⟨h1, by rw [hl, chunkRaw_length]⟩

/-- The mean of no curves is the zero curve. -/
theorem curveMean_nil (nf : ℕ) : curveMean [] nf = List.replicate nf 0 := by
  unfold curveMean
  simp only [List.map_nil, List.sum_nil, List.length_nil, Nat.cast_zero, div_zero]
  rw [List.map_const', List.length_range]

/-- The running-mean update `(k * mean + x) / (k + 1)` with `k = |P|` turns
the pointwise mean over `P` into the pointwise mean over `P ++ [x]`. -/
theorem zipWith_runningMean (P : List (List ℝ)) (x : List ℝ) (nf : ℕ)
    (hx : x.length = nf) :
    List.zipWith (fun o y => ((P.length : ℝ) * o + y) / ((P.length : ℝ) + 1))
        (curveMean P nf) x
      = curveMean (P ++ [x]) nf := by
  have hx' : x = (List.range nf).map fun j => x.getD j 0 := by
    conv_lhs => rw [← map_range_getD x, hx]
  unfold curveMean
  conv_lhs => rw [hx']
  rw [List.zipWith_map _ _ _ (List.range nf) (List.range nf), List.zipWith_same]
  apply List.map_congr_left
  intro j hj
  rw [List.map_append, List.sum_append, List.length_append]
  simp only [List.map_cons, List.map_nil, List.sum_cons, List.sum_nil, List.length_cons,
    List.length_nil, add_zero]
  push_cast
  rcases eq_or_ne P.length 0 with h0 | h0
  · obtain rfl : P = [] := List.length_eq_zero.mp h0
    simp
  · have hP : (P.length : ℝ) ≠ 0 := Nat.cast_ne_zero.mpr h0
    have hP1 : (P.length : ℝ) + 1 ≠ 0 := by positivity
    field_simp


/-- The pointwise mean always has one entry per frequency bin. -/
theorem curveMean_length (ls : List (List ℝ)) (nf : ℕ) : (curveMean ls nf).length = nf := by
  unfold curveMean
  rw [List.length_map, List.length_range]

/-- Master lemma for the normal path: if the head of the stream consists of
`cs` full-size chunks, the loop consumes them one by one, and after them the
three aggregates are exactly the pointwise arithmetic means of the per-chunk
curves seen so far (`P` are the chunks already aggregated before this call,
`P.length` the current chunk index); the backup write must succeed at every
chunk index the call actually reaches. -/
theorem ppLoop_chunks (cfg : PPConfig) (n : ℕ) (oms : List ℝ)
    (hdf : 0 < dfOf oms) (hw : 0 < cfg.widthWin)
    (h2 : 2 ≤ oms.length)
    (hker : (⌈cfg.widthWin / dfOf oms⌉).toNat ≤ oms.length)
    (hpos : n * NDOF cfg ≠ 0) :
    ∀ (cs : List (List ℝ)) (fuel : ℕ) (P : List (List ℝ)) (rest : List ℝ) (st : PPState),
      st.chunkSize = n → st.oms = oms →
      st.stream = cs.join ++ rest →
      (∀ c ∈ cs, c.length = n * NDOF cfg) →
      st.SHC_smooth = curveMean (P.map (chunkSmoothD cfg oms n)) oms.length →
      st.SHC_smooth2 =
        curveMean (P.map fun c => (chunkSmoothD cfg oms n c).map fun y => y ^ 2) oms.length →
      st.SHC_average = curveMean (P.map (chunkRaw cfg oms n)) oms.length →
      (∀ j, cfg.backup = true → j < P.length + cs.length → cfg.saveOk j = true) →
      ppLoop cfg (cs.length + fuel) P.length st =
        ppLoop cfg fuel (P.length + cs.length) { st with
          stream := rest
          SHC_smooth := curveMean ((P ++ cs).map (chunkSmoothD cfg oms n)) oms.length
          SHC_smooth2 :=
            curveMean ((P ++ cs).map fun c => (chunkSmoothD cfg oms n c).map fun y => y ^ 2)
              oms.length
          SHC_average := curveMean ((P ++ cs).map (chunkRaw cfg oms n)) oms.length } := by
  intro cs
  induction cs with
  | nil =>
    intro fuel P rest st hcs homs hstream _hc hS hS2 hA _hsave
    simp only [List.length_nil, Nat.zero_add, Nat.add_zero, List.append_nil, List.join,
      List.nil_append] at *
    have hrest : st.stream = rest := hstream
    rw [← hrest, ← hS, ← hS2, ← hA]
  | cons c cs' IH =>
    intro fuel P rest st hcs homs hstream hc hS hS2 hA hsave
    have hclen : c.length = n * NDOF cfg := hc c (List.mem_cons_self c cs')
    have hsd := chunkSmooth_eq cfg oms n c hdf hw hker
    have hstep := ppLoop_step_full cfg (cs'.length + fuel) P.length st c
      (cs'.join ++ rest) (chunkSmoothD cfg oms n c)
      (by rw [hstream]; simp [List.join])
      (by rw [hclen, hcs])
      (by rw [hclen]; exact hpos)
      (by rw [homs]; exact h2)
      (by rw [homs, hcs]; exact hsd.1)
      (by rw [hsd.2, hS, curveMean_length])
      (fun hb => hsave P.length hb (by simp only [List.length_cons]; omega))
    have hlen1 : (c :: cs').length + fuel = cs'.length + fuel + 1 := by
      simp only [List.length_cons]
      omega
    rw [hlen1, hstep]
    have hstep_smooth :
        List.zipWith (fun o x => ((P.length : ℝ) * o + x) / ((P.length : ℝ) + 1))
            st.SHC_smooth (chunkSmoothD cfg oms n c)
          = curveMean ((P ++ [c]).map (chunkSmoothD cfg oms n)) oms.length := by
      rw [hS]
      have := zipWith_runningMean (P.map (chunkSmoothD cfg oms n)) (chunkSmoothD cfg oms n c)
        oms.length hsd.2
      simp only [List.length_map] at this
      rw [this]
      congr 1
      simp
    have hstep_smooth2 :
        List.zipWith (fun o x => ((P.length : ℝ) * o + x ^ 2) / ((P.length : ℝ) + 1))
            st.SHC_smooth2 (chunkSmoothD cfg oms n c)
          = curveMean ((P ++ [c]).map fun d => (chunkSmoothD cfg oms n d).map fun y => y ^ 2)
              oms.length := by
      rw [hS2]
      have hzw : List.zipWith (fun o x => ((P.length : ℝ) * o + x ^ 2) / ((P.length : ℝ) + 1))
            (curveMean (P.map fun d => (chunkSmoothD cfg oms n d).map fun y => y ^ 2) oms.length)
            (chunkSmoothD cfg oms n c)
          = List.zipWith (fun o y => ((P.length : ℝ) * o + y) / ((P.length : ℝ) + 1))
            (curveMean (P.map fun d => (chunkSmoothD cfg oms n d).map fun y => y ^ 2) oms.length)
            ((chunkSmoothD cfg oms n c).map fun y => y ^ 2) := by
        rw [List.zipWith_map_right]
      rw [hzw]
      have := zipWith_runningMean
        (P.map fun d => (chunkSmoothD cfg oms n d).map fun y => y ^ 2)
        ((chunkSmoothD cfg oms n c).map fun y => y ^ 2)
        oms.length (by rw [List.length_map]; exact hsd.2)
      simp only [List.length_map] at this
      rw [this]
      congr 1
      simp
    have hstep_avg :
        List.zipWith (fun o x => ((P.length : ℝ) * o + x) / ((P.length : ℝ) + 1))
            st.SHC_average (chunkRaw cfg st.oms st.chunkSize c)
          = curveMean ((P ++ [c]).map (chunkRaw cfg oms n)) oms.length := by
      rw [hA, homs, hcs]
      have := zipWith_runningMean (P.map (chunkRaw cfg oms n)) (chunkRaw cfg oms n c)
        oms.length (chunkRaw_length cfg oms n c)
      simp only [List.length_map] at this
      rw [this]
      congr 1
      simp
    have hIH := IH fuel (P ++ [c]) rest ({ st with
        stream := cs'.join ++ rest
        SHC_smooth := List.zipWith
          (fun o x => ((P.length : ℝ) * o + x) / ((P.length : ℝ) + 1)) st.SHC_smooth
          (chunkSmoothD cfg oms n c)
        SHC_smooth2 := List.zipWith
          (fun o x => ((P.length : ℝ) * o + x ^ 2) / ((P.length : ℝ) + 1)) st.SHC_smooth2
          (chunkSmoothD cfg oms n c)
        SHC_average := List.zipWith
          (fun o x => ((P.length : ℝ) * o + x) / ((P.length : ℝ) + 1)) st.SHC_average
          (chunkRaw cfg st.oms st.chunkSize c) })
      hcs homs rfl (fun d hd => hc d (List.mem_cons_of_mem c hd))
      (by simpa using hstep_smooth)
      (by simpa using hstep_smooth2)
      (by simpa using hstep_avg)
      (by
        intro j hb hj
        refine hsave j hb ?_
        simp only [List.length_append, List.length_singleton, List.length_cons,
          List.length_nil] at hj ⊢
        omega)
    simp only [List.length_append, List.length_singleton] at hIH
    have hk1 : P.length + 1 + cs'.length = P.length + (c :: cs').length := by
      simp only [List.length_cons]
      omega
    have happ : (P ++ [c]) ++ cs' = P ++ (c :: cs') := by
      simp
    rw [happ] at hIH
    rw [← hk1]
    exact hIH
  


/-- The initial loop state built by `postProcess` (lines 200-210). -/
def ppInit (cfg : PPConfig) (vels : List ℝ) : PPState :=
  { chunkSize := cfg.chunkSize0
    NChunks := cfg.NChunks0
    oms := omsFFT cfg.chunkSize0 cfg.sampleTimestep
    SHC_smooth := List.replicate (omsFFT cfg.chunkSize0 cfg.sampleTimestep).length 0
    SHC_smooth2 := List.replicate (omsFFT cfg.chunkSize0 cfg.sampleTimestep).length 0
    SHC_average := List.replicate (omsFFT cfg.chunkSize0 cfg.sampleTimestep).length 0
    SHC_error := none
    stream := vels }

/-- Source: `postProcess` is the loop on the initial state followed by finalization. -/
theorem postProcess_def (cfg : PPConfig) (vels : List ℝ) :
    postProcess cfg vels =
      Except.map ppFinalize (ppLoop cfg cfg.NChunks0.toNat 0 (ppInit cfg vels)) := rfl

/-- Finalization only sets `SHC_error`; every other field is unchanged. -/
theorem ppFinalize_fields (st : PPState) :
    (ppFinalize st).SHC_smooth = st.SHC_smooth ∧
    (ppFinalize st).SHC_smooth2 = st.SHC_smooth2 ∧
    (ppFinalize st).SHC_average = st.SHC_average ∧
    (ppFinalize st).NChunks = st.NChunks ∧
    (ppFinalize st).chunkSize = st.chunkSize := by
  unfold ppFinalize
  split <;> simp

/-- The pointwise mean of a list of curves does not depend on their order. -/
theorem curveMean_perm (ls ls' : List (List ℝ)) (h : ls.Perm ls') (nf : ℕ) :
    curveMean ls nf = curveMean ls' nf := by
  unfold curveMean
  apply List.map_congr_left
  intro j _
  rw [(h.map fun c => c.getD j 0).sum_eq, h.length_eq]

/-- C1: for a run of `postProcess` that aggregates `N` full-size chunks (no
size-changing short first chunk), the final `SHC_smooth` is the pointwise
arithmetic mean of the `N` per-chunk smoothed curves, `SHC_smooth2` the mean
of their squares, and `SHC_average` the mean of the `N` per-chunk unsmoothed
curves; the recurrence `mean_new = (k * mean_old + x) / (k + 1)` for
`k = 0 .. N-1` computes exactly the arithmetic mean, which is independent of
the order of the chunk curves.  The hypothesis `hker` restricts to the
regime where the boxcar kernel fits within the spectrum — outside it the
very first aggregate update raises a broadcast `ValueError`, so no run
aggregates any chunk there. -/
theorem c1_running_mean_is_arithmetic_mean (cfg : PPConfig) (cs : List (List ℝ))
    (vels : List ℝ)
    (hvels : vels = cs.join)
    (hc : ∀ c ∈ cs, c.length = cfg.chunkSize0 * NDOF cfg)
    (hN : cfg.NChunks0 = (cs.length : ℤ))
    (hcs2 : 2 ≤ cfg.chunkSize0)
    (hdt : 0 < cfg.sampleTimestep)
    (hw : 0 < cfg.widthWin)
    (hker : (⌈cfg.widthWin / dfOf (omsFFT cfg.chunkSize0 cfg.sampleTimestep)⌉).toNat
      ≤ (omsFFT cfg.chunkSize0 cfg.sampleTimestep).length)
    (hndof : NDOF cfg ≠ 0)
    (hsave : cfg.backup = true → ∀ j, cfg.saveOk j = true) :
    ∃ st, postProcess cfg vels = Except.ok st ∧
      st.SHC_smooth =
        curveMean (cs.map
            (chunkSmoothD cfg (omsFFT cfg.chunkSize0 cfg.sampleTimestep) cfg.chunkSize0))
          (omsFFT cfg.chunkSize0 cfg.sampleTimestep).length ∧
      st.SHC_smooth2 =
        curveMean (cs.map fun c =>
            (chunkSmoothD cfg (omsFFT cfg.chunkSize0 cfg.sampleTimestep) cfg.chunkSize0 c).map
              fun y => y ^ 2)
          (omsFFT cfg.chunkSize0 cfg.sampleTimestep).length ∧
      st.SHC_average =
        curveMean (cs.map
            (chunkRaw cfg (omsFFT cfg.chunkSize0 cfg.sampleTimestep) cfg.chunkSize0))
          (omsFFT cfg.chunkSize0 cfg.sampleTimestep).length ∧
      ∀ (ls ls' : List (List ℝ)) (nf : ℕ), ls.Perm ls' →
        curveMean ls nf = curveMean ls' nf := by
  have hdf := (dfOf_omsFFT hcs2 hdt).2
  have h2 : 2 ≤ (omsFFT cfg.chunkSize0 cfg.sampleTimestep).length := by
    rw [omsFFT_length]
    omega
  have hpos : cfg.chunkSize0 * NDOF cfg ≠ 0 := Nat.mul_ne_zero (by omega) hndof
  have hstr : (ppInit cfg vels).stream = cs.join ++ [] := by
    rw [List.append_nil]
    exact hvels
  have hinit : (ppInit cfg vels).SHC_smooth =
      curveMean (([] : List (List ℝ)).map
        (chunkSmoothD cfg (omsFFT cfg.chunkSize0 cfg.sampleTimestep) cfg.chunkSize0))
        (omsFFT cfg.chunkSize0 cfg.sampleTimestep).length := by
    rw [List.map_nil, curveMean_nil]
    rfl
  have hinit2 : (ppInit cfg vels).SHC_smooth2 =
      curveMean (([] : List (List ℝ)).map fun c =>
        (chunkSmoothD cfg (omsFFT cfg.chunkSize0 cfg.sampleTimestep) cfg.chunkSize0 c).map
          fun y => y ^ 2)
        (omsFFT cfg.chunkSize0 cfg.sampleTimestep).length := by
    rw [List.map_nil, curveMean_nil]
    rfl
  have hinit3 : (ppInit cfg vels).SHC_average =
      curveMean (([] : List (List ℝ)).map
        (chunkRaw cfg (omsFFT cfg.chunkSize0 cfg.sampleTimestep) cfg.chunkSize0))
        (omsFFT cfg.chunkSize0 cfg.sampleTimestep).length := by
    rw [List.map_nil, curveMean_nil]
    rfl
  have hrun := ppLoop_chunks cfg cfg.chunkSize0 (omsFFT cfg.chunkSize0 cfg.sampleTimestep)
    hdf hw h2 hker hpos cs 0 [] [] (ppInit cfg vels) rfl rfl hstr hc hinit hinit2 hinit3
    (fun j hb _ => hsave hb j)
  simp only [List.length_nil, Nat.add_zero, Nat.zero_add, List.nil_append, ppLoop] at hrun
  have htn : cfg.NChunks0.toNat = cs.length := by
    rw [hN]
    exact Int.toNat_natCast cs.length
  rw [postProcess_def, htn, hrun]
  simp only [Except.map]
  refine ⟨_, rfl, ?_, ?_, ?_, fun ls ls' nf h => curveMean_perm ls ls' h nf⟩
  · exact (ppFinalize_fields _).1
  · exact (ppFinalize_fields _).2.1
  · exact (ppFinalize_fields _).2.2.1

/-- C2: after the chunk loop, the error estimate of a completed run is the
standard-error curve `sqrt((N/(N-1)) * (SHC_smooth2 - SHC_smooth^2)) / sqrt(N)`
whenever the final chunk count `N` is `> 1`, and is `None` (absent, not a zero
curve) whenever `N ≤ 1`. -/
theorem c2_error_estimate (cfg : PPConfig) (vels : List ℝ) :
    (postProcess cfg vels).map (fun st => st.SHC_error)
      = (postProcess cfg vels).map (fun st =>
          if 1 < st.NChunks then
            some (List.zipWith (fun m2 m =>
              Real.sqrt (((st.NChunks : ℝ) / ((st.NChunks : ℝ) - 1)) * (m2 - m ^ 2)) /
                Real.sqrt (st.NChunks : ℝ)) st.SHC_smooth2 st.SHC_smooth)
          else none) := by
  rw [postProcess_def]
  rcases ppLoop cfg cfg.NChunks0.toNat 0 (ppInit cfg vels) with e | st
  · rfl
  · show Except.ok (ppFinalize st).SHC_error = Except.ok _
    unfold ppFinalize
    split <;> rename_i h <;> simp [h]


/-- A small concrete configuration: two interface atoms (`NL = NR = 1`),
zero coupling matrix, unit timestep and scale, window width 1, chunk size 2,
two requested chunks, no checkpointing. -/
def c1wCfg : PPConfig :=
  { NL := 1, NR := 1, idsL := [0], idsR := [1], Kij := fun _ _ => 0
    sampleTimestep := 1, scaleFactor := 1, widthWin := 1
    chunkSize0 := 2, NChunks0 := 2, backup := false, saveOk := fun _ => true }

/-- Two full-size chunks of zero velocities for `c1wCfg`. -/
def c1wChunks : List (List ℝ) := [List.replicate 12 0, List.replicate 12 0]

/-- Witness for `c1_running_mean_is_arithmetic_mean`: the hypotheses hold for
`c1wCfg` with two full zero chunks, and the run completes. -/
theorem c1_running_mean_witness :
    ∃ st, postProcess c1wCfg c1wChunks.join = Except.ok st := by
  obtain ⟨st, h1, _⟩ := c1_running_mean_is_arithmetic_mean c1wCfg c1wChunks c1wChunks.join
    rfl
    (by
      intro c hcm
      simp only [c1wChunks, List.mem_cons, List.not_mem_nil, or_false] at hcm
      rcases hcm with rfl | rfl <;> norm_num [c1wCfg, NDOF])
    (by norm_num [c1wCfg, c1wChunks])
    (by norm_num [c1wCfg])
    (by norm_num [c1wCfg])
    (by norm_num [c1wCfg])
    (by
      have hcs2 : 2 ≤ c1wCfg.chunkSize0 := by norm_num [c1wCfg]
      have hdt : (0 : ℝ) < c1wCfg.sampleTimestep := by norm_num [c1wCfg]
      rw [(dfOf_omsFFT hcs2 hdt).1, omsFFT_length]
      norm_num [c1wCfg])
    (by norm_num [c1wCfg, NDOF])
    (by intro hb; simp [c1wCfg] at hb)
  exact ⟨st, h1⟩

/-- C7: a velocity stream exhausted after exactly 3 full chunks, with
`NChunks = 5` requested, terminates normally (no error), reports
`NChunks = 2` completed chunks, and produces a non-absent error estimate;
stream exhaustion itself never raises.  The hypothesis `hker` restricts to
the regime where the boxcar kernel fits within the spectrum — outside it
the run dies at chunk 0 with a broadcast `ValueError`, before exhaustion
could be observed. -/
theorem c7_exhausted_stream_two_chunks (cfg : PPConfig) (cs : List (List ℝ))
    (vels : List ℝ)
    (hvels : vels = cs.join)
    (hlen3 : cs.length = 3)
    (hc : ∀ c ∈ cs, c.length = cfg.chunkSize0 * NDOF cfg)
    (hN : cfg.NChunks0 = 5)
    (hcs2 : 2 ≤ cfg.chunkSize0)
    (hdt : 0 < cfg.sampleTimestep)
    (hw : 0 < cfg.widthWin)
    (hker : (⌈cfg.widthWin / dfOf (omsFFT cfg.chunkSize0 cfg.sampleTimestep)⌉).toNat
      ≤ (omsFFT cfg.chunkSize0 cfg.sampleTimestep).length)
    (hndof : NDOF cfg ≠ 0)
    (hsave : cfg.backup = true → ∀ j, cfg.saveOk j = true) :
    ∃ st, postProcess cfg vels = Except.ok st ∧ st.NChunks = 2 ∧
      st.SHC_error.isSome = true := by
  have hdf := (dfOf_omsFFT hcs2 hdt).2
  have h2 : 2 ≤ (omsFFT cfg.chunkSize0 cfg.sampleTimestep).length := by
    rw [omsFFT_length]
    omega
  have hpos : cfg.chunkSize0 * NDOF cfg ≠ 0 := Nat.mul_ne_zero (by omega) hndof
  have hstr : (ppInit cfg vels).stream = cs.join ++ [] := by
    rw [List.append_nil]
    exact hvels
  have hinit : (ppInit cfg vels).SHC_smooth =
      curveMean (([] : List (List ℝ)).map
        (chunkSmoothD cfg (omsFFT cfg.chunkSize0 cfg.sampleTimestep) cfg.chunkSize0))
        (omsFFT cfg.chunkSize0 cfg.sampleTimestep).length := by
    rw [List.map_nil, curveMean_nil]
    rfl
  have hinit2 : (ppInit cfg vels).SHC_smooth2 =
      curveMean (([] : List (List ℝ)).map fun c =>
        (chunkSmoothD cfg (omsFFT cfg.chunkSize0 cfg.sampleTimestep) cfg.chunkSize0 c).map
          fun y => y ^ 2)
        (omsFFT cfg.chunkSize0 cfg.sampleTimestep).length := by
    rw [List.map_nil, curveMean_nil]
    rfl
  have hinit3 : (ppInit cfg vels).SHC_average =
      curveMean (([] : List (List ℝ)).map
        (chunkRaw cfg (omsFFT cfg.chunkSize0 cfg.sampleTimestep) cfg.chunkSize0))
        (omsFFT cfg.chunkSize0 cfg.sampleTimestep).length := by
    rw [List.map_nil, curveMean_nil]
    rfl
  have hrun := ppLoop_chunks cfg cfg.chunkSize0 (omsFFT cfg.chunkSize0 cfg.sampleTimestep)
    hdf hw h2 hker hpos cs 2 [] [] (ppInit cfg vels) rfl rfl hstr hc hinit hinit2 hinit3
    (fun j hb _ => hsave hb j)
  simp only [List.length_nil, Nat.zero_add] at hrun
  rw [hlen3] at hrun
  have hstep := ppLoop_step_exhausted cfg 1 3 _ (rfl :
    ({ ppInit cfg vels with
        stream := ([] : List ℝ)
        SHC_smooth := curveMean (cs.map
            (chunkSmoothD cfg (omsFFT cfg.chunkSize0 cfg.sampleTimestep) cfg.chunkSize0))
          (omsFFT cfg.chunkSize0 cfg.sampleTimestep).length
        SHC_smooth2 := curveMean (cs.map fun c =>
            (chunkSmoothD cfg (omsFFT cfg.chunkSize0 cfg.sampleTimestep) cfg.chunkSize0 c).map
              fun y => y ^ 2)
          (omsFFT cfg.chunkSize0 cfg.sampleTimestep).length
        SHC_average := curveMean (cs.map
            (chunkRaw cfg (omsFFT cfg.chunkSize0 cfg.sampleTimestep) cfg.chunkSize0))
          (omsFFT cfg.chunkSize0 cfg.sampleTimestep).length } : PPState).stream = [])
  have htn : cfg.NChunks0.toNat = 3 + 2 := by
    rw [hN]
    rfl
  simp only [List.nil_append] at hrun
  rw [postProcess_def, htn, hrun, (by norm_num : (2 : ℕ) = 1 + 1), hstep]
  simp only [Except.map]
  refine ⟨_, rfl, ?_, ?_⟩
  · rw [(ppFinalize_fields _).2.2.2.1]
    norm_num
  · unfold ppFinalize
    rw [if_pos (by norm_num)]
    simp


/-- Source: `c1wCfg` with five requested chunks. -/
def c7wCfg : PPConfig :=
  { NL := 1, NR := 1, idsL := [0], idsR := [1], Kij := fun _ _ => 0
    sampleTimestep := 1, scaleFactor := 1, widthWin := 1
    chunkSize0 := 2, NChunks0 := 5, backup := false, saveOk := fun _ => true }

/-- Three full-size chunks of zero velocities for `c7wCfg`. -/
def c7wChunks : List (List ℝ) :=
  [List.replicate 12 0, List.replicate 12 0, List.replicate 12 0]

/-- Witness for `c7_exhausted_stream_two_chunks`: a concrete stream with
exactly 3 of 5 requested chunks. -/
theorem c7_exhausted_stream_witness :
    ∃ st, postProcess c7wCfg c7wChunks.join = Except.ok st ∧ st.NChunks = 2 ∧
      st.SHC_error.isSome = true :=
  c7_exhausted_stream_two_chunks c7wCfg c7wChunks c7wChunks.join rfl
    (by norm_num [c7wChunks])
    (by
      intro c hcm
      simp only [c7wChunks, List.mem_cons, List.not_mem_nil, or_false] at hcm
      rcases hcm with rfl | rfl | rfl <;> norm_num [c7wCfg, NDOF])
    (by norm_num [c7wCfg])
    (by norm_num [c7wCfg])
    (by norm_num [c7wCfg])
    (by norm_num [c7wCfg])
    (by
      have hcs2 : 2 ≤ c7wCfg.chunkSize0 := by norm_num [c7wCfg]
      have hdt : (0 : ℝ) < c7wCfg.sampleTimestep := by norm_num [c7wCfg]
      rw [(dfOf_omsFFT hcs2 hdt).1, omsFFT_length]
      norm_num [c7wCfg])
    (by norm_num [c7wCfg, NDOF])
    (by intro hb; simp [c7wCfg] at hb)

/-- C3 (amended): when the read at chunk index `k > 0` returns a non-empty
element count smaller than `chunkSize * NDOF`, `postProcess` discards the
partial chunk, stops the loop, and sets `NChunks = k - 1` (one less than the
`k` completed chunks stated by the original claim), while the aggregates do
equal the means over the `k` full chunks already processed.  Here `cs` are
the `k` full chunks and `r` the short terminal read.  The hypothesis `hker`
restricts to the regime where the boxcar kernel fits within the spectrum —
outside it the aggregate update at chunk 0 raises a broadcast `ValueError`
and index `k > 0` is never reached. -/
theorem c3_short_terminal_chunk (cfg : PPConfig) (cs : List (List ℝ)) (r vels : List ℝ)
    (hvels : vels = cs.join ++ r)
    (hkpos : 0 < cs.length)
    (hc : ∀ c ∈ cs, c.length = cfg.chunkSize0 * NDOF cfg)
    (hrne : r.length ≠ 0)
    (hrlt : r.length < cfg.chunkSize0 * NDOF cfg)
    (hNge : (cs.length : ℤ) + 1 ≤ cfg.NChunks0)
    (hcs2 : 2 ≤ cfg.chunkSize0)
    (hdt : 0 < cfg.sampleTimestep)
    (hw : 0 < cfg.widthWin)
    (hker : (⌈cfg.widthWin / dfOf (omsFFT cfg.chunkSize0 cfg.sampleTimestep)⌉).toNat
      ≤ (omsFFT cfg.chunkSize0 cfg.sampleTimestep).length)
    (hndof : NDOF cfg ≠ 0)
    (hsave : cfg.backup = true → ∀ j, cfg.saveOk j = true) :
    ∃ st, postProcess cfg vels = Except.ok st ∧
      st.NChunks = (cs.length : ℤ) - 1 ∧
      st.SHC_smooth =
        curveMean (cs.map
            (chunkSmoothD cfg (omsFFT cfg.chunkSize0 cfg.sampleTimestep) cfg.chunkSize0))
          (omsFFT cfg.chunkSize0 cfg.sampleTimestep).length ∧
      st.SHC_smooth2 =
        curveMean (cs.map fun c =>
            (chunkSmoothD cfg (omsFFT cfg.chunkSize0 cfg.sampleTimestep) cfg.chunkSize0 c).map
              fun y => y ^ 2)
          (omsFFT cfg.chunkSize0 cfg.sampleTimestep).length ∧
      st.SHC_average =
        curveMean (cs.map
            (chunkRaw cfg (omsFFT cfg.chunkSize0 cfg.sampleTimestep) cfg.chunkSize0))
          (omsFFT cfg.chunkSize0 cfg.sampleTimestep).length := by
  have hdf := (dfOf_omsFFT hcs2 hdt).2
  have h2 : 2 ≤ (omsFFT cfg.chunkSize0 cfg.sampleTimestep).length := by
    rw [omsFFT_length]
    omega
  have hpos : cfg.chunkSize0 * NDOF cfg ≠ 0 := Nat.mul_ne_zero (by omega) hndof
  have hstr : (ppInit cfg vels).stream = cs.join ++ r := hvels
  have hinit : (ppInit cfg vels).SHC_smooth =
      curveMean (([] : List (List ℝ)).map
        (chunkSmoothD cfg (omsFFT cfg.chunkSize0 cfg.sampleTimestep) cfg.chunkSize0))
        (omsFFT cfg.chunkSize0 cfg.sampleTimestep).length := by
    rw [List.map_nil, curveMean_nil]
    rfl
  have hinit2 : (ppInit cfg vels).SHC_smooth2 =
      curveMean (([] : List (List ℝ)).map fun c =>
        (chunkSmoothD cfg (omsFFT cfg.chunkSize0 cfg.sampleTimestep) cfg.chunkSize0 c).map
          fun y => y ^ 2)
        (omsFFT cfg.chunkSize0 cfg.sampleTimestep).length := by
    rw [List.map_nil, curveMean_nil]
    rfl
  have hinit3 : (ppInit cfg vels).SHC_average =
      curveMean (([] : List (List ℝ)).map
        (chunkRaw cfg (omsFFT cfg.chunkSize0 cfg.sampleTimestep) cfg.chunkSize0))
        (omsFFT cfg.chunkSize0 cfg.sampleTimestep).length := by
    rw [List.map_nil, curveMean_nil]
    rfl
  obtain ⟨f, hf⟩ : ∃ f, cfg.NChunks0.toNat = cs.length + (f + 1) := by
    refine ⟨cfg.NChunks0.toNat - cs.length - 1, ?_⟩
    omega
  have hrun := ppLoop_chunks cfg cfg.chunkSize0 (omsFFT cfg.chunkSize0 cfg.sampleTimestep)
    hdf hw h2 hker hpos cs (f + 1) [] r (ppInit cfg vels) rfl rfl hstr hc hinit hinit2 hinit3
    (fun j hb _ => hsave hb j)
  simp only [List.length_nil, Nat.zero_add, List.nil_append] at hrun
  have hstep := ppLoop_step_short_discard cfg f cs.length
    ({ ppInit cfg vels with
        stream := r
        SHC_smooth := curveMean (cs.map
            (chunkSmoothD cfg (omsFFT cfg.chunkSize0 cfg.sampleTimestep) cfg.chunkSize0))
          (omsFFT cfg.chunkSize0 cfg.sampleTimestep).length
        SHC_smooth2 := curveMean (cs.map fun c =>
            (chunkSmoothD cfg (omsFFT cfg.chunkSize0 cfg.sampleTimestep) cfg.chunkSize0 c).map
              fun y => y ^ 2)
          (omsFFT cfg.chunkSize0 cfg.sampleTimestep).length
        SHC_average := curveMean (cs.map
            (chunkRaw cfg (omsFFT cfg.chunkSize0 cfg.sampleTimestep) cfg.chunkSize0))
          (omsFFT cfg.chunkSize0 cfg.sampleTimestep).length } : PPState)
    hrne hrlt hkpos
  rw [postProcess_def, hf, hrun, hstep]
  simp only [Except.map]
  refine ⟨_, rfl, ?_, ?_, ?_, ?_⟩
  · rw [(ppFinalize_fields _).2.2.2.1]
  · exact (ppFinalize_fields _).1
  · exact (ppFinalize_fields _).2.1
  · exact (ppFinalize_fields _).2.2.1


/-- Configuration used for the C3 short-terminal-chunk scenario: chunk size 2,
five requested chunks, no checkpointing. -/
def c3wCfg : PPConfig :=
  { NL := 1, NR := 1, idsL := [0], idsR := [1], Kij := fun _ _ => 0
    sampleTimestep := 1, scaleFactor := 1, widthWin := 1
    chunkSize0 := 2, NChunks0 := 5, backup := false, saveOk := fun _ => true }

/-- Witness for `c3_short_terminal_chunk`: one full zero chunk (12 numbers)
followed by a short read of 6 numbers; the run completes with
`NChunks = 1 - 1 = 0`. -/
theorem c3_short_terminal_witness :
    ∃ st, postProcess c3wCfg (List.replicate 18 0) = Except.ok st ∧ st.NChunks = 0 := by
  obtain ⟨st, h1, h2, _⟩ := c3_short_terminal_chunk c3wCfg [List.replicate 12 0]
    (List.replicate 6 0) (List.replicate 18 0)
    (by
      show List.replicate 18 (0 : ℝ) = List.replicate 12 0 ++ [] ++ List.replicate 6 0
      rw [List.append_nil, ← List.replicate_add])
    (by norm_num)
    (by
      intro c hcm
      simp only [List.mem_cons, List.not_mem_nil, or_false] at hcm
      subst hcm
      norm_num [c3wCfg, NDOF])
    (by norm_num)
    (by norm_num [c3wCfg, NDOF])
    (by norm_num [c3wCfg])
    (by norm_num [c3wCfg])
    (by norm_num [c3wCfg])
    (by norm_num [c3wCfg])
    (by
      have hcs2 : 2 ≤ c3wCfg.chunkSize0 := by norm_num [c3wCfg]
      have hdt : (0 : ℝ) < c3wCfg.sampleTimestep := by norm_num [c3wCfg]
      rw [(dfOf_omsFFT hcs2 hdt).1, omsFFT_length]
      norm_num [c3wCfg])
    (by norm_num [c3wCfg, NDOF])
    (by intro hb; simp [c3wCfg] at hb)
  refine ⟨st, h1, ?_⟩
  rw [h2]
  norm_num

/-- C3 counterexample: with one full chunk and a short terminal read at chunk
index `k = 1`, the run reports `NChunks = 0`, not the `k = 1` completed
chunks stated by the claim. -/
theorem c3_short_terminal_counterexample :
    ∃ st, postProcess c3wCfg (List.replicate 18 0) = Except.ok st ∧ st.NChunks ≠ 1 := by
  have hdt : (0 : ℝ) < c3wCfg.sampleTimestep := by norm_num [c3wCfg]
  have hcs2 : 2 ≤ c3wCfg.chunkSize0 := by norm_num [c3wCfg]
  have hdf := (dfOf_omsFFT hcs2 hdt).2
  have h2 : 2 ≤ (omsFFT c3wCfg.chunkSize0 c3wCfg.sampleTimestep).length := by
    rw [omsFFT_length]
    norm_num [c3wCfg]
  have hpos : c3wCfg.chunkSize0 * NDOF c3wCfg ≠ 0 := by norm_num [c3wCfg, NDOF]
  have hsave : c3wCfg.backup = true → ∀ j, c3wCfg.saveOk j = true := by
    intro hb
    simp [c3wCfg] at hb
  have hstr : (ppInit c3wCfg (List.replicate 18 0)).stream =
      [List.replicate 12 (0 : ℝ)].join ++ List.replicate 6 0 := by
    show List.replicate 18 (0 : ℝ) = List.replicate 12 0 ++ [] ++ List.replicate 6 0
    rw [List.append_nil, ← List.replicate_add]
  have hc : ∀ c ∈ [List.replicate 12 (0 : ℝ)],
      c.length = c3wCfg.chunkSize0 * NDOF c3wCfg := by
    intro c hcm
    simp only [List.mem_cons, List.not_mem_nil, or_false] at hcm
    subst hcm
    norm_num [c3wCfg, NDOF]
  have hinit : (ppInit c3wCfg (List.replicate 18 0)).SHC_smooth =
      curveMean (([] : List (List ℝ)).map
        (chunkSmoothD c3wCfg (omsFFT c3wCfg.chunkSize0 c3wCfg.sampleTimestep) c3wCfg.chunkSize0))
        (omsFFT c3wCfg.chunkSize0 c3wCfg.sampleTimestep).length := by
    rw [List.map_nil, curveMean_nil]
    rfl
  have hinit2 : (ppInit c3wCfg (List.replicate 18 0)).SHC_smooth2 =
      curveMean (([] : List (List ℝ)).map fun c =>
        (chunkSmoothD c3wCfg (omsFFT c3wCfg.chunkSize0 c3wCfg.sampleTimestep) c3wCfg.chunkSize0
            c).map fun y => y ^ 2)
        (omsFFT c3wCfg.chunkSize0 c3wCfg.sampleTimestep).length := by
    rw [List.map_nil, curveMean_nil]
    rfl
  have hinit3 : (ppInit c3wCfg (List.replicate 18 0)).SHC_average =
      curveMean (([] : List (List ℝ)).map
        (chunkRaw c3wCfg (omsFFT c3wCfg.chunkSize0 c3wCfg.sampleTimestep) c3wCfg.chunkSize0))
        (omsFFT c3wCfg.chunkSize0 c3wCfg.sampleTimestep).length := by
    rw [List.map_nil, curveMean_nil]
    rfl
  have hw : (0 : ℝ) < c3wCfg.widthWin := by norm_num [c3wCfg]
  have hker : (⌈c3wCfg.widthWin /
        dfOf (omsFFT c3wCfg.chunkSize0 c3wCfg.sampleTimestep)⌉).toNat
      ≤ (omsFFT c3wCfg.chunkSize0 c3wCfg.sampleTimestep).length := by
    rw [(dfOf_omsFFT hcs2 hdt).1, omsFFT_length]
    norm_num [c3wCfg]
  have hrun := ppLoop_chunks c3wCfg c3wCfg.chunkSize0
    (omsFFT c3wCfg.chunkSize0 c3wCfg.sampleTimestep) hdf hw h2 hker hpos
    [List.replicate 12 0] 4 [] (List.replicate 6 0) (ppInit c3wCfg (List.replicate 18 0))
    rfl rfl hstr hc hinit hinit2 hinit3 (fun j hb _ => hsave hb j)
  simp only [List.length_nil, Nat.zero_add, List.nil_append, List.length_singleton] at hrun
  have hstep := ppLoop_step_short_discard c3wCfg 3 1
    ({ ppInit c3wCfg (List.replicate 18 0) with
        stream := List.replicate 6 0
        SHC_smooth := curveMean ([List.replicate 12 0].map
            (chunkSmoothD c3wCfg (omsFFT c3wCfg.chunkSize0 c3wCfg.sampleTimestep)
              c3wCfg.chunkSize0))
          (omsFFT c3wCfg.chunkSize0 c3wCfg.sampleTimestep).length
        SHC_smooth2 := curveMean ([List.replicate 12 0].map fun c =>
            (chunkSmoothD c3wCfg (omsFFT c3wCfg.chunkSize0 c3wCfg.sampleTimestep)
                c3wCfg.chunkSize0 c).map fun y => y ^ 2)
          (omsFFT c3wCfg.chunkSize0 c3wCfg.sampleTimestep).length
        SHC_average := curveMean ([List.replicate 12 0].map
            (chunkRaw c3wCfg (omsFFT c3wCfg.chunkSize0 c3wCfg.sampleTimestep)
              c3wCfg.chunkSize0))
          (omsFFT c3wCfg.chunkSize0 c3wCfg.sampleTimestep).length } : PPState)
    (by simp)
    (by simp [ppInit, c3wCfg, NDOF])
    (by norm_num)
  have htn : c3wCfg.NChunks0.toNat = 1 + 4 := rfl
  rw [postProcess_def, htn, hrun, (by norm_num : (4 : ℕ) = 3 + 1), hstep]
  simp only [Except.map]
  refine ⟨_, rfl, ?_⟩
  rw [(ppFinalize_fields _).2.2.2.1]
  norm_num


/-- C10: when the first read is short (non-empty, fewer than
`chunkSize * NDOF` elements) and its element count is not a multiple of
`NDOF`, the reshape of the read array into `(NDOF, count / NDOF)` is
impossible and `postProcess` fails instead of applying the shrink-chunkSize
policy; hence the shrink-and-continue policy can succeed only when the
leftover element count is divisible by `NDOF`. -/
theorem c10_short_first_chunk_reshape_fails (cfg : PPConfig) (vels : List ℝ)
    (hne : vels.length ≠ 0)
    (hlt : vels.length < cfg.chunkSize0 * NDOF cfg)
    (hdvd : ¬ NDOF cfg ∣ vels.length)
    (hN1 : 1 ≤ cfg.NChunks0) :
    postProcess cfg vels = Except.error "ValueError: cannot reshape array" := by
  obtain ⟨f, hf⟩ : ∃ f, cfg.NChunks0.toNat = f + 1 := by
    refine ⟨cfg.NChunks0.toNat - 1, ?_⟩
    omega
  rw [postProcess_def, hf,
    ppLoop_step_short_reshape_fails cfg f (ppInit cfg vels) hne hlt hdvd]
  rfl

/-- Witness for `c10_short_first_chunk_reshape_fails`: 7 numbers with
`NDOF = 6` and chunk size 2 (7 < 12, and 6 does not divide 7). -/
theorem c10_short_first_chunk_witness :
    postProcess c3wCfg (List.replicate 7 0) = Except.error "ValueError: cannot reshape array" :=
  c10_short_first_chunk_reshape_fails c3wCfg (List.replicate 7 0)
    (by norm_num)
    (by norm_num [c3wCfg, NDOF])
    (by
      rw [List.length_replicate]
      norm_num [c3wCfg, NDOF])
    (by norm_num [c3wCfg])

/-- One loop iteration on a full-size chunk whose checkpoint write fails:
the exception propagates and the run aborts. -/
theorem ppLoop_step_full_savefail (cfg : PPConfig) (fuel k : ℕ) (st : PPState)
    (c rest : List ℝ) (SHCs : List ℝ)
    (hstream : st.stream = c ++ rest)
    (hlen : c.length = st.chunkSize * NDOF cfg)
    (hpos : c.length ≠ 0)
    (homs : 2 ≤ st.oms.length)
    (hsm : chunkSmooth cfg st.oms st.chunkSize c = some SHCs)
    (hbl : SHCs.length = st.SHC_smooth.length)
    (hb : cfg.backup = true)
    (hs : cfg.saveOk k = false) :
    ppLoop cfg (fuel + 1) k st = Except.error "IOError: backup write failed" := by
  have htake : st.stream.take (st.chunkSize * NDOF cfg) = c := by
    rw [hstream, ← hlen, List.take_left]
  have hback : (cfg.backup && !(cfg.saveOk k)) = true := by
    rw [hb, hs]
    rfl
  simp only [ppLoop]
  rw [htake, if_neg hpos, if_neg (not_ne_iff.mpr hlen), if_neg (not_lt.mpr homs), hsm]
  simp only [hback, hbl]
  simp

/-- C8 (amended): a failure of the checkpoint write after any chunk's
aggregate update is fatal: the exception from the write propagates out of
`postProcess`, aborting the run (no further chunks, no finalization), rather
than being logged and skipped.  `cs` are the full chunks whose writes
succeed and `c` the full chunk (at index `cs.length`) whose write fails. -/
theorem c8_backup_failure_aborts (cfg : PPConfig) (cs : List (List ℝ))
    (c rest vels : List ℝ)
    (hvels : vels = cs.join ++ c ++ rest)
    (hc : ∀ d ∈ cs, d.length = cfg.chunkSize0 * NDOF cfg)
    (hclen : c.length = cfg.chunkSize0 * NDOF cfg)
    (hcne : c.length ≠ 0)
    (hcs2 : 2 ≤ cfg.chunkSize0)
    (hdt : 0 < cfg.sampleTimestep)
    (hw : 0 < cfg.widthWin)
    (hker : (⌈cfg.widthWin / dfOf (omsFFT cfg.chunkSize0 cfg.sampleTimestep)⌉).toNat
      ≤ (omsFFT cfg.chunkSize0 cfg.sampleTimestep).length)
    (hb : cfg.backup = true)
    (hsave : ∀ j, j < cs.length → cfg.saveOk j = true)
    (hs : cfg.saveOk cs.length = false)
    (hN1 : (cs.length : ℤ) + 1 ≤ cfg.NChunks0) :
    postProcess cfg vels = Except.error "IOError: backup write failed" := by
  have hdf := (dfOf_omsFFT hcs2 hdt).2
  have h2 : 2 ≤ (omsFFT cfg.chunkSize0 cfg.sampleTimestep).length := by
    rw [omsFFT_length]
    omega
  have hpos : cfg.chunkSize0 * NDOF cfg ≠ 0 := hclen ▸ hcne
  have hstr : (ppInit cfg vels).stream = cs.join ++ (c ++ rest) := by
    show vels = _
    rw [hvels, List.append_assoc]
  have hinit : (ppInit cfg vels).SHC_smooth =
      curveMean (([] : List (List ℝ)).map
        (chunkSmoothD cfg (omsFFT cfg.chunkSize0 cfg.sampleTimestep) cfg.chunkSize0))
        (omsFFT cfg.chunkSize0 cfg.sampleTimestep).length := by
    rw [List.map_nil, curveMean_nil]
    rfl
  have hinit2 : (ppInit cfg vels).SHC_smooth2 =
      curveMean (([] : List (List ℝ)).map fun d =>
        (chunkSmoothD cfg (omsFFT cfg.chunkSize0 cfg.sampleTimestep) cfg.chunkSize0 d).map
          fun y => y ^ 2)
        (omsFFT cfg.chunkSize0 cfg.sampleTimestep).length := by
    rw [List.map_nil, curveMean_nil]
    rfl
  have hinit3 : (ppInit cfg vels).SHC_average =
      curveMean (([] : List (List ℝ)).map
        (chunkRaw cfg (omsFFT cfg.chunkSize0 cfg.sampleTimestep) cfg.chunkSize0))
        (omsFFT cfg.chunkSize0 cfg.sampleTimestep).length := by
    rw [List.map_nil, curveMean_nil]
    rfl
  obtain ⟨f, hf⟩ : ∃ f, cfg.NChunks0.toNat = cs.length + (f + 1) := by
    refine ⟨cfg.NChunks0.toNat - cs.length - 1, ?_⟩
    omega
  have hrun := ppLoop_chunks cfg cfg.chunkSize0 (omsFFT cfg.chunkSize0 cfg.sampleTimestep)
    hdf hw h2 hker hpos cs (f + 1) [] (c ++ rest) (ppInit cfg vels)
    rfl rfl hstr hc hinit hinit2 hinit3
    (fun j _ hj => hsave j (by simpa using hj))
  simp only [List.length_nil, Nat.zero_add, List.nil_append] at hrun
  have hsm := chunkSmooth_eq cfg (omsFFT cfg.chunkSize0 cfg.sampleTimestep)
    cfg.chunkSize0 c hdf hw hker
  have hstep := ppLoop_step_full_savefail cfg f cs.length
    ({ ppInit cfg vels with
        stream := c ++ rest
        SHC_smooth := curveMean (cs.map
            (chunkSmoothD cfg (omsFFT cfg.chunkSize0 cfg.sampleTimestep) cfg.chunkSize0))
          (omsFFT cfg.chunkSize0 cfg.sampleTimestep).length
        SHC_smooth2 := curveMean (cs.map fun d =>
            (chunkSmoothD cfg (omsFFT cfg.chunkSize0 cfg.sampleTimestep) cfg.chunkSize0 d).map
              fun y => y ^ 2)
          (omsFFT cfg.chunkSize0 cfg.sampleTimestep).length
        SHC_average := curveMean (cs.map
            (chunkRaw cfg (omsFFT cfg.chunkSize0 cfg.sampleTimestep) cfg.chunkSize0))
          (omsFFT cfg.chunkSize0 cfg.sampleTimestep).length } : PPState)
    c rest _ rfl hclen hcne h2 hsm.1
    (by
      rw [hsm.2]
      exact (curveMean_length _ _).symm)
    hb hs
  rw [postProcess_def, hf, hrun, hstep]
  rfl

/-- A configuration whose checkpoint write always fails. -/
def c8wCfg : PPConfig :=
  { NL := 1, NR := 1, idsL := [0], idsR := [1], Kij := fun _ _ => 0
    sampleTimestep := 1, scaleFactor := 1, widthWin := 1
    chunkSize0 := 2, NChunks0 := 1, backup := true, saveOk := fun _ => false }

/-- A configuration whose checkpoint write succeeds at chunk 0 and fails at
chunk 1. -/
def c8wCfg2 : PPConfig :=
  { NL := 1, NR := 1, idsL := [0], idsR := [1], Kij := fun _ _ => 0
    sampleTimestep := 1, scaleFactor := 1, widthWin := 1
    chunkSize0 := 2, NChunks0 := 2, backup := true, saveOk := fun j => decide (j = 0) }

/-- Witness for `c8_backup_failure_aborts`: one full zero chunk whose write
succeeds, then a second full zero chunk whose write fails. -/
theorem c8_backup_failure_witness :
    postProcess c8wCfg2 (List.replicate 24 0) = Except.error "IOError: backup write failed" :=
  c8_backup_failure_aborts c8wCfg2 [List.replicate 12 0] (List.replicate 12 0) []
    (List.replicate 24 0)
    (by
      show List.replicate 24 (0 : ℝ)
        = [List.replicate 12 0].join ++ List.replicate 12 0 ++ []
      rw [List.append_nil]
      show List.replicate 24 (0 : ℝ) = List.replicate 12 0 ++ [] ++ List.replicate 12 0
      rw [List.append_nil, ← List.replicate_add])
    (by
      intro d hd
      simp only [List.mem_cons, List.not_mem_nil, or_false] at hd
      subst hd
      norm_num [c8wCfg2, NDOF])
    (by norm_num [c8wCfg2, NDOF])
    (by norm_num)
    (by norm_num [c8wCfg2])
    (by norm_num [c8wCfg2])
    (by norm_num [c8wCfg2])
    (by
      have hcs2 : 2 ≤ c8wCfg2.chunkSize0 := by norm_num [c8wCfg2]
      have hdt : (0 : ℝ) < c8wCfg2.sampleTimestep := by norm_num [c8wCfg2]
      rw [(dfOf_omsFFT hcs2 hdt).1, omsFFT_length]
      norm_num [c8wCfg2])
    rfl
    (by
      intro j hj
      have hj0 : j = 0 := by simpa using hj
      subst hj0
      rfl)
    rfl
    (by norm_num [c8wCfg2])

/-- C8 counterexample: with checkpointing configured and the write failing
after the first (zero) chunk, the run does not proceed to the next chunk or
to finalization with unchanged aggregates; it aborts with the write error. -/
theorem c8_backup_failure_counterexample :
    ∃ e, postProcess c8wCfg (List.replicate 12 0) = Except.error e ∧
      ∀ st, postProcess c8wCfg (List.replicate 12 0) ≠ Except.ok st := by
  have hdt : (0 : ℝ) < c8wCfg.sampleTimestep := by norm_num [c8wCfg]
  have hcs2 : 2 ≤ c8wCfg.chunkSize0 := by norm_num [c8wCfg]
  have hdf := (dfOf_omsFFT hcs2 hdt).2
  have h2 : 2 ≤ (omsFFT c8wCfg.chunkSize0 c8wCfg.sampleTimestep).length := by
    rw [omsFFT_length]
    norm_num [c8wCfg]
  have hw : (0 : ℝ) < c8wCfg.widthWin := by norm_num [c8wCfg]
  have hker : (⌈c8wCfg.widthWin /
        dfOf (omsFFT c8wCfg.chunkSize0 c8wCfg.sampleTimestep)⌉).toNat
      ≤ (omsFFT c8wCfg.chunkSize0 c8wCfg.sampleTimestep).length := by
    rw [(dfOf_omsFFT hcs2 hdt).1, omsFFT_length]
    norm_num [c8wCfg]
  have hsm := chunkSmooth_eq c8wCfg (omsFFT c8wCfg.chunkSize0 c8wCfg.sampleTimestep)
    c8wCfg.chunkSize0 (List.replicate 12 0) hdf hw hker
  have hstep := ppLoop_step_full_savefail c8wCfg 0 0 (ppInit c8wCfg (List.replicate 12 0))
    (List.replicate 12 0) [] _
    (by rw [List.append_nil]; rfl)
    (by norm_num [ppInit, c8wCfg, NDOF])
    (by norm_num)
    h2 hsm.1
    (by
      rw [hsm.2]
      show (omsFFT c8wCfg.chunkSize0 c8wCfg.sampleTimestep).length =
        (List.replicate (omsFFT c8wCfg.chunkSize0 c8wCfg.sampleTimestep).length (0 : ℝ)).length
      rw [List.length_replicate])
    rfl rfl
  have htn : c8wCfg.NChunks0.toNat = 0 + 1 := rfl
  have hrun : postProcess c8wCfg (List.replicate 12 0) =
      Except.error "IOError: backup write failed" := by
    rw [postProcess_def, htn, hstep]
    rfl
  refine ⟨_, hrun, ?_⟩
  intro st hok
  rw [hrun] at hok
  exact Except.noConfusion hok


/-- A configuration whose boxcar kernel is longer than the spectrum: chunk
size 2 (two frequency bins, bin spacing `1/2`) with window width 2, giving a
kernel of `ceil(2 / (1/2)) = 4` bins. -/
def bcCfg : PPConfig :=
  { NL := 1, NR := 1, idsL := [0], idsR := [1], Kij := fun _ _ => 0
    sampleTimestep := 1, scaleFactor := 1, widthWin := 2
    chunkSize0 := 2, NChunks0 := 1, backup := false, saveOk := fun _ => true }

/-- The broadcast error path is live: with a 4-bin kernel on a 2-bin
spectrum the smoothed curve has `max(2, 4) = 4` entries and the first
aggregate update fails with numpy's broadcast `ValueError`. -/
theorem postProcess_broadcast_fail_example :
    postProcess bcCfg (List.replicate 12 0) =
      Except.error "ValueError: operands could not be broadcast together" := by
  have hdt : (0 : ℝ) < bcCfg.sampleTimestep := by norm_num [bcCfg]
  have hcs2 : 2 ≤ bcCfg.chunkSize0 := by norm_num [bcCfg]
  have hdf := (dfOf_omsFFT hcs2 hdt).2
  have hw : (0 : ℝ) < bcCfg.widthWin := by norm_num [bcCfg]
  have hfl : (chunkRaw bcCfg (omsFFT bcCfg.chunkSize0 bcCfg.sampleTimestep)
      bcCfg.chunkSize0 (List.replicate 12 0)).length ≠ 0 := by
    rw [chunkRaw_length, omsFFT_length]
    norm_num [bcCfg]
  obtain ⟨s, hs, hl⟩ := smoothen_isSome_long hdf hw
    (chunkRaw bcCfg (omsFFT bcCfg.chunkSize0 bcCfg.sampleTimestep) bcCfg.chunkSize0
      (List.replicate 12 0)) hfl
  have hl4 : s.length = 4 := by
    rw [hl, chunkRaw_length, omsFFT_length, (dfOf_omsFFT hcs2 hdt).1]
    norm_num [bcCfg]
    rfl
  have hstep := ppLoop_step_broadcast_fail bcCfg 0 0 (ppInit bcCfg (List.replicate 12 0))
    (List.replicate 12 0) [] s
    (by rw [List.append_nil]; rfl)
    (by norm_num [ppInit, bcCfg, NDOF])
    (by norm_num)
    (by
      show 2 ≤ (omsFFT bcCfg.chunkSize0 bcCfg.sampleTimestep).length
      rw [omsFFT_length]
      norm_num [bcCfg])
    hs
    (by
      rw [hl4]
      show (4 : ℕ) ≠
        (List.replicate (omsFFT bcCfg.chunkSize0 bcCfg.sampleTimestep).length (0 : ℝ)).length
      rw [List.length_replicate, omsFFT_length]
      norm_num [bcCfg])
  have htn : bcCfg.NChunks0.toNat = 0 + 1 := rfl
  rw [postProcess_def, htn, hstep]
  rfl

/-- The raw per-chunk curve is exactly 0 at frequency bin 0 (the loop at
line 258 starts at `ki = 1` and the `np.zeros` entry at bin 0 is only
rescaled). -/
theorem chunkRaw_getD_zero (cfg : PPConfig) (oms : List ℝ) (n : ℕ) (v : List ℝ) :
    (chunkRaw cfg oms n v).getD 0 0 = 0 := by
  unfold chunkRaw
  rw [getD_map_range]
  split
  · simp
  · rfl

/-- The running-mean update preserves a zero entry at bin 0. -/
theorem zipWith_mean_getD_zero (k : ℝ) (a b : List ℝ)
    (ha : a.getD 0 0 = 0) (hb : b.getD 0 0 = 0) :
    (List.zipWith (fun o x => (k * o + x) / (k + 1)) a b).getD 0 0 = 0 := by
  cases a with
  | nil => rfl
  | cons x xs =>
    cases b with
    | nil => rfl
    | cons y ys =>
      simp only [List.zipWith_cons_cons, List.getD_cons_zero] at ha hb ⊢
      rw [ha, hb]
      norm_num

/-- Loop invariant: `SHC_average` stays 0 at frequency bin 0. -/
theorem ppLoop_avg_bin0 (cfg : PPConfig) :
    ∀ (fuel k : ℕ) (st : PPState), st.SHC_average.getD 0 0 = 0 →
      ∀ st', ppLoop cfg fuel k st = Except.ok st' → st'.SHC_average.getD 0 0 = 0 := by
  intro fuel
  induction fuel with
  | zero =>
    intro k st h0 st' h
    simp only [ppLoop] at h
    cases h
    exact h0
  | succ f IH =>
    intro k st h0 st' h
    simp only [ppLoop] at h
    split at h
    · cases h
      exact h0
    · split at h
      · split at h
        · cases h
          exact h0
        · split at h
          · exact Except.noConfusion h
          · split at h
            · exact Except.noConfusion h
            · split at h
              · exact Except.noConfusion h
              · cases h
                exact chunkRaw_getD_zero cfg _ _ _
      · split at h
        · exact Except.noConfusion h
        · split at h
          · exact Except.noConfusion h
          · split at h
            · exact Except.noConfusion h
            · split at h
              · exact Except.noConfusion h
              · exact IH _ _
                  (zipWith_mean_getD_zero _ _ _ h0 (chunkRaw_getD_zero cfg _ _ _)) st' h

/-- C4 (amended): the value at frequency bin 0 is exactly 0 for every
per-chunk raw (unsmoothed) curve and for the final `SHC_average` of every
run; the smoothed per-chunk curve — and hence `SHC_smooth` and `SHC_smooth2`
— is not in general 0 at bin 0, because the boxcar convolution mixes
neighbouring bins into bin 0 (see the counterexample). -/
theorem c4_zero_frequency_bin :
    (∀ (cfg : PPConfig) (oms : List ℝ) (n : ℕ) (v : List ℝ),
        (chunkRaw cfg oms n v).getD 0 0 = 0) ∧
    ∀ (cfg : PPConfig) (vels : List ℝ),
      (postProcess cfg vels).map (fun st => st.SHC_average.getD 0 0)
        = (postProcess cfg vels).map fun _ => (0 : ℝ) := by
  constructor
  · exact chunkRaw_getD_zero
  · intro cfg vels
    rw [postProcess_def]
    rcases hres : ppLoop cfg cfg.NChunks0.toNat 0 (ppInit cfg vels) with e | st
    · rfl
    · have h0 : (ppInit cfg vels).SHC_average.getD 0 0 = 0 := by
        show (List.replicate (omsFFT cfg.chunkSize0 cfg.sampleTimestep).length (0 : ℝ)).getD 0 0
          = 0
        exact getD_replicate_zero _ _
      have hkeep := ppLoop_avg_bin0 cfg _ 0 _ h0 st hres
      show Except.ok ((ppFinalize st).SHC_average.getD 0 0) = Except.ok 0
      rw [(ppFinalize_fields st).2.2.1, hkeep]


/-- Configuration for the C4 counterexample: one left and one right atom,
coupling only between their x components, unit timestep, chunk size 4 and a
window of width 3/4 (three frequency bins). -/
def c4xCfg : PPConfig :=
  { NL := 1, NR := 1, idsL := [0], idsR := [1]
    Kij := fun i j => if i = 0 ∧ j = 0 then 1 else 0
    sampleTimestep := 1, scaleFactor := 1, widthWin := 3/4
    chunkSize0 := 4, NChunks0 := 1, backup := false, saveOk := fun _ => true }

/-- One chunk of velocities (`chunkSize = 4`, `NDOF = 6`, column-major):
dof 0 (left x) has samples `0, -1/2, 0, 1/2` and dof 3 (right x) has samples
`1/2, 0, -1/2, 0`; all other dofs are zero. -/
def c4xVels : List ℝ :=
  [0, 0, 0, 1/2, 0, 0,
   -1/2, 0, 0, 0, 0, 0,
   0, 0, 0, -1/2, 0, 0,
   1/2, 0, 0, 0, 0, 0]

/-- The DFT root for `n = 4` is `-i`. -/
theorem dftRoot_four : dftRoot 4 = -Complex.I := by
  unfold dftRoot
  have h : -(2 * (Real.pi : ℂ) * Complex.I) / ((4 : ℕ) : ℂ)
      = (↑(-(Real.pi / 2)) : ℂ) * Complex.I := by
    push_cast
    ring
  rw [h, Complex.exp_mul_I, ← Complex.ofReal_cos, ← Complex.ofReal_sin]
  rw [Real.cos_neg, Real.sin_neg, Real.cos_pi_div_two, Real.sin_pi_div_two]
  push_cast
  ring

/-- FFT of dof 0 at bin 1: `i`. -/
theorem c4x_r0k1 : rfftAt 4 (reshapeF 6 c4xVels 0) 1 = Complex.I := by
  unfold rfftAt
  rw [dftRoot_four]
  simp only [Finset.sum_range_succ, Finset.sum_range_zero]
  rw [show reshapeF 6 c4xVels 0 0 = 0 from rfl,
      show reshapeF 6 c4xVels 0 1 = -1/2 from rfl,
      show reshapeF 6 c4xVels 0 2 = 0 from rfl,
      show reshapeF 6 c4xVels 0 3 = 1/2 from rfl]
  norm_num
  rw [show (-Complex.I)^3 = Complex.I by rw [pow_succ, neg_sq, Complex.I_sq]; ring]
  ring

/-- FFT of dof 1 at bin 1: 0. -/
theorem c4x_r1k1 : rfftAt 4 (reshapeF 6 c4xVels 1) 1 = 0 := by
  unfold rfftAt
  simp only [Finset.sum_range_succ, Finset.sum_range_zero]
  rw [show reshapeF 6 c4xVels 1 0 = 0 from rfl,
      show reshapeF 6 c4xVels 1 1 = 0 from rfl,
      show reshapeF 6 c4xVels 1 2 = 0 from rfl,
      show reshapeF 6 c4xVels 1 3 = 0 from rfl]
  norm_num

/-- FFT of dof 2 at bin 1: 0. -/
theorem c4x_r2k1 : rfftAt 4 (reshapeF 6 c4xVels 2) 1 = 0 := by
  unfold rfftAt
  simp only [Finset.sum_range_succ, Finset.sum_range_zero]
  rw [show reshapeF 6 c4xVels 2 0 = 0 from rfl,
      show reshapeF 6 c4xVels 2 1 = 0 from rfl,
      show reshapeF 6 c4xVels 2 2 = 0 from rfl,
      show reshapeF 6 c4xVels 2 3 = 0 from rfl]
  norm_num

/-- FFT of dof 3 at bin 1: 1. -/
theorem c4x_r3k1 : rfftAt 4 (reshapeF 6 c4xVels 3) 1 = 1 := by
  unfold rfftAt
  rw [dftRoot_four]
  simp only [Finset.sum_range_succ, Finset.sum_range_zero]
  rw [show reshapeF 6 c4xVels 3 0 = 1/2 from rfl,
      show reshapeF 6 c4xVels 3 1 = 0 from rfl,
      show reshapeF 6 c4xVels 3 2 = -1/2 from rfl,
      show reshapeF 6 c4xVels 3 3 = 0 from rfl]
  norm_num

/-- FFT of dof 0 at bin 2: 0. -/
theorem c4x_r0k2 : rfftAt 4 (reshapeF 6 c4xVels 0) 2 = 0 := by
  unfold rfftAt
  rw [dftRoot_four]
  simp only [Finset.sum_range_succ, Finset.sum_range_zero]
  rw [show reshapeF 6 c4xVels 0 0 = 0 from rfl,
      show reshapeF 6 c4xVels 0 1 = -1/2 from rfl,
      show reshapeF 6 c4xVels 0 2 = 0 from rfl,
      show reshapeF 6 c4xVels 0 3 = 1/2 from rfl]
  norm_num
  rw [show (-Complex.I)^6 = -1 by
    rw [show (6:ℕ) = 2*3 from rfl, pow_mul, neg_sq, Complex.I_sq]; norm_num]
  ring

/-- FFT of dof 1 at bin 2: 0. -/
theorem c4x_r1k2 : rfftAt 4 (reshapeF 6 c4xVels 1) 2 = 0 := by
  unfold rfftAt
  simp only [Finset.sum_range_succ, Finset.sum_range_zero]
  rw [show reshapeF 6 c4xVels 1 0 = 0 from rfl,
      show reshapeF 6 c4xVels 1 1 = 0 from rfl,
      show reshapeF 6 c4xVels 1 2 = 0 from rfl,
      show reshapeF 6 c4xVels 1 3 = 0 from rfl]
  norm_num

/-- FFT of dof 2 at bin 2: 0. -/
theorem c4x_r2k2 : rfftAt 4 (reshapeF 6 c4xVels 2) 2 = 0 := by
  unfold rfftAt
  simp only [Finset.sum_range_succ, Finset.sum_range_zero]
  rw [show reshapeF 6 c4xVels 2 0 = 0 from rfl,
      show reshapeF 6 c4xVels 2 1 = 0 from rfl,
      show reshapeF 6 c4xVels 2 2 = 0 from rfl,
      show reshapeF 6 c4xVels 2 3 = 0 from rfl]
  norm_num

/-- Left spectral rows at bin 1. -/
theorem c4x_L0 : velsL c4xCfg 4 c4xVels 0 1 = Complex.I := by
  show rfftAt 4 (reshapeF 6 c4xVels 0) 1 * ((1 : ℝ) : ℂ) = Complex.I
  rw [c4x_r0k1]
  norm_num

theorem c4x_L1 : velsL c4xCfg 4 c4xVels 1 1 = 0 := by
  show rfftAt 4 (reshapeF 6 c4xVels 1) 1 * ((1 : ℝ) : ℂ) = 0
  rw [c4x_r1k1]
  norm_num

theorem c4x_L2 : velsL c4xCfg 4 c4xVels 2 1 = 0 := by
  show rfftAt 4 (reshapeF 6 c4xVels 2) 1 * ((1 : ℝ) : ℂ) = 0
  rw [c4x_r2k1]
  norm_num

/-- Right spectral row 0 at bin 1. -/
theorem c4x_R0 : velsR c4xCfg 4 c4xVels 0 1 = 1 := by
  show rfftAt 4 (reshapeF 6 c4xVels 3) 1 * ((1 : ℝ) : ℂ) = 1
  rw [c4x_r3k1]
  norm_num

/-- Left spectral rows at bin 2 (all zero). -/
theorem c4x_L0b : velsL c4xCfg 4 c4xVels 0 2 = 0 := by
  show rfftAt 4 (reshapeF 6 c4xVels 0) 2 * ((1 : ℝ) : ℂ) = 0
  rw [c4x_r0k2]
  norm_num

theorem c4x_L1b : velsL c4xCfg 4 c4xVels 1 2 = 0 := by
  show rfftAt 4 (reshapeF 6 c4xVels 1) 2 * ((1 : ℝ) : ℂ) = 0
  rw [c4x_r1k2]
  norm_num

theorem c4x_L2b : velsL c4xCfg 4 c4xVels 2 2 = 0 := by
  show rfftAt 4 (reshapeF 6 c4xVels 2) 2 * ((1 : ℝ) : ℂ) = 0
  rw [c4x_r2k2]
  norm_num

/-- The imaginary cross term at bin 1 is `-1`. -/
theorem c4x_term1 : chunkSHCterm c4xCfg 4 c4xVels 1 = -1 := by
  show (∑ i in Finset.range 3, velsL c4xCfg 4 c4xVels i 1 *
      ∑ j in Finset.range 3,
        (-(c4xCfg.Kij i j) : ℂ) * (starRingEnd ℂ) (velsR c4xCfg 4 c4xVels j 1)).im = -1
  simp only [Finset.sum_range_succ, Finset.sum_range_zero]
  rw [c4x_L0, c4x_L1, c4x_L2, c4x_R0,
    show c4xCfg.Kij 0 0 = 1 from rfl,
    show c4xCfg.Kij 0 1 = 0 from rfl,
    show c4xCfg.Kij 0 2 = 0 from rfl]
  simp

/-- The imaginary cross term at bin 2 is `0`. -/
theorem c4x_term2 : chunkSHCterm c4xCfg 4 c4xVels 2 = 0 := by
  show (∑ i in Finset.range 3, velsL c4xCfg 4 c4xVels i 2 *
      ∑ j in Finset.range 3,
        (-(c4xCfg.Kij i j) : ℂ) * (starRingEnd ℂ) (velsR c4xCfg 4 c4xVels j 2)).im = 0
  simp only [Finset.sum_range_succ, Finset.sum_range_zero]
  rw [c4x_L0b, c4x_L1b, c4x_L2b]
  simp

/-- The frequency grid of the run: `[0, π/2, π]`. -/
theorem c4x_oms : omsFFT c4xCfg.chunkSize0 c4xCfg.sampleTimestep
    = [0, Real.pi / 2, Real.pi] := by
  show omsFFT 4 1 = [0, Real.pi / 2, Real.pi]
  unfold omsFFT rfftLen
  rw [show (4 : ℕ) / 2 + 1 = 3 from rfl, show List.range 3 = [0, 1, 2] from rfl]
  simp only [List.map_cons, List.map_nil]
  norm_num
  constructor
  · ring
  · ring

/-- The raw spectral curve of the chunk: `[0, 1/π, 0]`. -/
theorem c4x_raw : chunkRaw c4xCfg (omsFFT c4xCfg.chunkSize0 c4xCfg.sampleTimestep) 4 c4xVels
    = [0, 1 / Real.pi, 0] := by
  rw [c4x_oms]
  unfold chunkRaw
  rw [show ([0, Real.pi / 2, Real.pi] : List ℝ).length = 3 from rfl,
      show List.range 3 = [0, 1, 2] from rfl]
  simp only [List.map_cons, List.map_nil]
  rw [show ([0, Real.pi / 2, Real.pi] : List ℝ).getD 1 0 = Real.pi / 2 from rfl,
      show ([0, Real.pi / 2, Real.pi] : List ℝ).getD 2 0 = Real.pi from rfl,
      c4x_term1, c4x_term2,
      show c4xCfg.sampleTimestep = 1 from rfl,
      show c4xCfg.scaleFactor = 1 from rfl]
  have hpi := Real.pi_ne_zero
  norm_num
  field_simp
  ring


/-- Boxcar of length 3 applied to `[0, 1/π, 0]`: every bin, including bin 0,
becomes `1/(3π)`. -/
theorem c4x_conv : convSame [0, 1 / Real.pi, 0] (List.replicate 3 (1 / (3 : ℝ)))
    = [1 / (3 * Real.pi), 1 / (3 * Real.pi), 1 / (3 * Real.pi)] := by
  unfold convSame
  rw [show ([0, 1 / Real.pi, 0] : List ℝ).length = 3 from rfl,
      show (List.replicate 3 (1 / (3 : ℝ))).length = 3 from rfl,
      if_neg (by norm_num), Nat.max_self, Nat.min_self,
      show List.range 3 = [0, 1, 2] from rfl]
  simp only [List.map_cons, List.map_nil, Finset.sum_range_succ, Finset.sum_range_zero]
  norm_num

/-- The bin spacing of the run: `1/4`. -/
theorem c4x_df : dfOf (omsFFT c4xCfg.chunkSize0 c4xCfg.sampleTimestep) = 1 / 4 := by
  rw [c4x_oms]
  unfold dfOf
  rw [show ([0, Real.pi / 2, Real.pi] : List ℝ).getD 1 0 = Real.pi / 2 from rfl,
      show ([0, Real.pi / 2, Real.pi] : List ℝ).getD 0 0 = 0 from rfl]
  have hpi := Real.pi_ne_zero
  field_simp
  ring

/-- The smoothed curve of the chunk: `[1/(3π), 1/(3π), 1/(3π)]`. -/
theorem c4x_smooth : chunkSmooth c4xCfg (omsFFT c4xCfg.chunkSize0 c4xCfg.sampleTimestep)
    4 c4xVels = some [1 / (3 * Real.pi), 1 / (3 * Real.pi), 1 / (3 * Real.pi)] := by
  unfold chunkSmooth
  rw [c4x_df, c4x_raw, show c4xCfg.widthWin = 3 / 4 from rfl]
  unfold smoothen
  rw [show ((3 : ℝ) / 4) / (1 / 4) = 3 by norm_num,
      show ⌈(3 : ℝ)⌉ = 3 by norm_num]
  rw [if_neg (by norm_num)]
  rw [show ((3 : ℤ)).toNat = 3 from rfl,
      show (((3 : ℤ)) : ℝ) = (3 : ℝ) by norm_num,
      c4x_conv]

/-- C4 counterexample: for the chunk of `c4xVels` the final `SHC_smooth` at
frequency bin 0 is `1/(3π) ≠ 0` — smoothing mixes bin 1 into bin 0, so the
claim that every aggregate is exactly 0 at bin 0 fails for the smoothed
aggregates. -/
theorem c4_zero_bin_counterexample :
    ∃ st, postProcess c4xCfg c4xVels = Except.ok st ∧ st.SHC_smooth.getD 0 0 ≠ 0 := by
  have hstep := ppLoop_step_full c4xCfg 0 0 (ppInit c4xCfg c4xVels) c4xVels []
    [1 / (3 * Real.pi), 1 / (3 * Real.pi), 1 / (3 * Real.pi)]
    (by rw [List.append_nil]; rfl)
    rfl
    (by rw [show c4xVels.length = 24 from rfl]; norm_num)
    (by rw [show (ppInit c4xCfg c4xVels).oms.length = 3 from rfl]; norm_num)
    c4x_smooth
    rfl
    (by intro hb; simp [c4xCfg] at hb)
  have htn : c4xCfg.NChunks0.toNat = 0 + 1 := rfl
  rw [postProcess_def, htn, hstep]
  simp only [ppLoop, Except.map]
  refine ⟨_, rfl, ?_⟩
  rw [(ppFinalize_fields _).1]
  show (List.zipWith (fun o x => (((0 : ℕ) : ℝ) * o + x) / (((0 : ℕ) : ℝ) + 1))
      (ppInit c4xCfg c4xVels).SHC_smooth
      [1 / (3 * Real.pi), 1 / (3 * Real.pi), 1 / (3 * Real.pi)]).getD 0 0 ≠ 0
  rw [show (ppInit c4xCfg c4xVels).SHC_smooth = [(0 : ℝ), 0, 0] from rfl]
  simp only [List.zipWith_cons_cons, List.getD_cons_zero]
  have hpi := Real.pi_ne_zero
  norm_num
  exact hpi


/-! Embedding of `fcCalc.fcCalc` (fcCalc.py, lines 114-179).  The external
LAMMPS engine is modelled by its coordinate buffer plus a force law
`F : coords → forces`; `scatter_atoms` writes the coordinate buffer and
`run 0 post no` recomputes the force buffer from the current coordinates. -/

/-- The engine state: the coordinate and force buffers (flattened, `3*natoms`
entries, `x, y, z` interleaved per atom). -/
structure LmpState where
  coords : List ℚ
  forces : List ℚ

/-- Source: `lmp.command("run 0 post no")`: recompute forces from the coordinates. -/
def run0 (F : List ℚ → List ℚ) (st : LmpState) : LmpState :=
  { st with forces := F st.coords }

/-- Source: `arr[inds]` — numpy fancy indexing of a flat array by an index list. -/
def gatherSel (f : List ℚ) (inds : List ℕ) : List ℚ := inds.map fun i => f.getD i 0

/-- Source: `inds_right_1d = np.sort(np.concatenate((3*r, 3*r+1, 3*r+2)))`
(lines 127-129). -/
def inds_right_1d (inds_right : List ℕ) : List ℕ :=
  (((inds_right.map fun r => 3 * r) ++ inds_right.map fun r => 3 * r + 1) ++
      inds_right.map fun r => 3 * r + 2).mergeSort (· ≤ ·)

/-- One direction of the finite-difference loop (lines 145-177): gather the
coordinates, displace coordinate `index` by `+hstep`, recompute and gather
forces, displace by `-2*hstep`, recompute and gather forces, form the row
`(fc1[inds_right_1d] - fc2[inds_right_1d]) / (2*hstep)`, then displace by
`+hstep` again (restoring) and scatter without recomputing. -/
def fcDirection (F : List ℚ → List ℚ) (h : ℚ) (r1d : List ℕ) (st : LmpState)
    (index : ℕ) : List ℚ × LmpState :=
  let xc := st.coords
  let xc1 := xc.set index (xc.getD index 0 + h)
  let st1 := run0 F { st with coords := xc1 }
  let fc1 := st1.forces
  let xc2 := xc1.set index (xc1.getD index 0 - 2 * h)
  let st2 := run0 F { st1 with coords := xc2 }
  let fc2 := st2.forces
  let row := List.zipWith (fun a b => (a - b) / (2 * h)) (gatherSel fc1 r1d) (gatherSel fc2 r1d)
  let xc3 := xc2.set index (xc2.getD index 0 + h)
  (row, { st2 with coords := xc3 })

/-- The three directions `x, y, z` of one left-side atom (`ind1` its system
index, `i1` its position in `inds_left`); rows `3*i1 + d` of `Kij` are
overwritten. -/
def fcAtom (F : List ℚ → List ℚ) (h : ℚ) (r1d : List ℕ) (i1 ind1 : ℕ)
    (K : List (List ℚ)) (st : LmpState) : List (List ℚ) × LmpState :=
  let p0 := fcDirection F h r1d st (3 * ind1 + 0)
  let p1 := fcDirection F h r1d p0.2 (3 * ind1 + 1)
  let p2 := fcDirection F h r1d p1.2 (3 * ind1 + 2)
  (((K.set (3 * i1 + 0) p0.1).set (3 * i1 + 1) p1.1).set (3 * i1 + 2) p2.1, p2.2)

/-- The loop over the left-side atoms (line 134). -/
def fcLoop (F : List ℚ → List ℚ) (h : ℚ) (r1d : List ℕ) :
    List ℕ → ℕ → List (List ℚ) → LmpState → List (List ℚ) × LmpState
  | [], _, K, st => (K, st)
  | ind1 :: rem, i1, K, st =>
    let p := fcAtom F h r1d i1 ind1 K st
    fcLoop F h r1d rem (i1 + 1) p.1 p.2

/-- Source: `fcCalc.fcCalc(hstep)`: `Kij = np.zeros((len(inds_left)*3, len(inds_right)*3))`
followed by the finite-difference loop. -/
def fcCalcModel (F : List ℚ → List ℚ) (inds_left inds_right : List ℕ) (h : ℚ)
    (st0 : LmpState) : List (List ℚ) × LmpState :=
  fcLoop F h (inds_right_1d inds_right) inds_left 0
    (List.replicate (inds_left.length * 3) (List.replicate (inds_right.length * 3) 0)) st0

/-- The central finite-difference row claimed by the specification:
`(F(x + h·e_index)[right_dofs] - F(x - h·e_index)[right_dofs]) / (2h)`,
both force evaluations taken at the unperturbed coordinates `x` displaced in
the single coordinate `index`. -/
def centralDiffRow (F : List ℚ → List ℚ) (x : List ℚ) (h : ℚ) (r1d : List ℕ)
    (index : ℕ) : List ℚ :=
  List.zipWith (fun a b => (a - b) / (2 * h))
    (gatherSel (F (x.set index (x.getD index 0 + h))) r1d)
    (gatherSel (F (x.set index (x.getD index 0 - h))) r1d)

/-- Source: `getD` after `set` at the same (in-range) index. -/
theorem getD_set_same (l : List ℚ) (i : ℕ) (a : ℚ) (h : i < l.length) :
    (l.set i a).getD i 0 = a := by
  unfold List.getD
  rw [List.get?_set_eq, List.get?_eq_get h]
  rfl

/-- Setting an index to its own value is the identity. -/
theorem set_getD_self (l : List ℚ) (i : ℕ) (h : i < l.length) :
    l.set i (l.getD i 0) = l := by
  apply List.ext_get (by simp)
  intro n h1 h2
  simp only [List.get_eq_getElem, List.getElem_set]
  split
  · rename_i hin
    subst hin
    exact List.getD_eq_getElem l 0 h2
  · rfl

/-- One direction computes exactly the claimed central-difference row and
restores the perturbed coordinate exactly. -/
theorem fcDirection_spec (F : List ℚ → List ℚ) (h : ℚ) (r1d : List ℕ)
    (st : LmpState) (index : ℕ) (hidx : index < st.coords.length) :
    (fcDirection F h r1d st index).1 = centralDiffRow F st.coords h r1d index ∧
    (fcDirection F h r1d st index).2.coords = st.coords := by
  unfold fcDirection centralDiffRow run0
  simp only []
  have hlen1 : index < (st.coords.set index (st.coords.getD index 0 + h)).length := by
    rw [List.length_set]
    exact hidx
  have h1 : (st.coords.set index (st.coords.getD index 0 + h)).getD index 0
      = st.coords.getD index 0 + h := getD_set_same _ _ _ hidx
  have h2 : ((st.coords.set index (st.coords.getD index 0 + h)).set index
        ((st.coords.set index (st.coords.getD index 0 + h)).getD index 0 - 2 * h))
      = st.coords.set index (st.coords.getD index 0 - h) := by
    rw [List.set_set, h1]
    ring_nf
  constructor
  · rw [h2]
  · rw [h2]
    have h3 : (st.coords.set index (st.coords.getD index 0 - h)).getD index 0
        = st.coords.getD index 0 - h := getD_set_same _ _ _ hidx
    rw [List.set_set, h3]
    have : st.coords.getD index 0 - h + h = st.coords.getD index 0 := by ring
    rw [this]
    exact set_getD_self _ _ hidx


/-- Source: `getD` after `set` at the same (in-range) index, any element type. -/
theorem getD_set_self {α : Type} (l : List α) (i : ℕ) (a d : α) (h : i < l.length) :
    (l.set i a).getD i d = a := by
  unfold List.getD
  rw [List.get?_set_eq, List.get?_eq_get h]
  rfl

/-- Source: `getD` after `set` at a different index, any element type. -/
theorem getD_set_neq {α : Type} (l : List α) (i : ℕ) (a d : α) (j : ℕ) (hne : i ≠ j) :
    (l.set i a).getD j d = l.getD j d := by
  unfold List.getD
  rw [List.get?_set_ne _ _ hne]

/-- One atom: the three direction rows are written at rows `3*i1 + d` of the
matrix, and the coordinates are restored. -/
theorem fcAtom_spec (F : List ℚ → List ℚ) (h : ℚ) (r1d : List ℕ) (i1 ind1 : ℕ)
    (K : List (List ℚ)) (st : LmpState) (x : List ℚ)
    (hst : st.coords = x) (hidx : 3 * ind1 + 2 < x.length) :
    (fcAtom F h r1d i1 ind1 K st).2.coords = x ∧
    (fcAtom F h r1d i1 ind1 K st).1 =
      ((K.set (3 * i1 + 0) (centralDiffRow F x h r1d (3 * ind1 + 0))).set (3 * i1 + 1)
          (centralDiffRow F x h r1d (3 * ind1 + 1))).set (3 * i1 + 2)
        (centralDiffRow F x h r1d (3 * ind1 + 2)) := by
  unfold fcAtom
  simp only []
  have h0 := fcDirection_spec F h r1d st (3 * ind1 + 0) (by rw [hst]; omega)
  have h1 := fcDirection_spec F h r1d (fcDirection F h r1d st (3 * ind1 + 0)).2
    (3 * ind1 + 1) (by rw [h0.2, hst]; omega)
  have h2 := fcDirection_spec F h r1d
    (fcDirection F h r1d (fcDirection F h r1d st (3 * ind1 + 0)).2 (3 * ind1 + 1)).2
    (3 * ind1 + 2) (by rw [h1.2, h0.2, hst]; omega)
  constructor
  · rw [h2.2, h1.2, h0.2, hst]
  · rw [h0.1, h1.1, h2.1, h1.2, h0.2, hst]

/-- The atom loop: coordinates restored, matrix length preserved, row
`3*(i1+m) + d` holds the central-difference row of atom `rem[m]` in
direction `d`, earlier rows are untouched, and every row is either an
original row or a central-difference row. -/
theorem fcLoop_spec (F : List ℚ → List ℚ) (h : ℚ) (r1d : List ℕ) :
    ∀ (rem : List ℕ) (i1 : ℕ) (K : List (List ℚ)) (st : LmpState) (x : List ℚ),
      st.coords = x →
      (∀ ind ∈ rem, 3 * ind + 2 < x.length) →
      3 * (i1 + rem.length) ≤ K.length →
      (fcLoop F h r1d rem i1 K st).2.coords = x ∧
      (fcLoop F h r1d rem i1 K st).1.length = K.length ∧
      (∀ m, m < rem.length → ∀ d, d < 3 →
        (fcLoop F h r1d rem i1 K st).1.getD (3 * (i1 + m) + d) []
          = centralDiffRow F x h r1d (3 * (rem.getD m 0) + d)) ∧
      (∀ r, r < 3 * i1 →
        (fcLoop F h r1d rem i1 K st).1.getD r [] = K.getD r []) ∧
      (∀ row ∈ (fcLoop F h r1d rem i1 K st).1,
        row ∈ K ∨ ∃ index, row = centralDiffRow F x h r1d index) := by
  intro rem
  induction rem with
  | nil =>
    intro i1 K st x hst _hrem _hb
    refine ⟨hst, rfl, ?_, fun r _ => rfl, fun row hrow => Or.inl hrow⟩
    intro m hm
    exact absurd hm (by simp)
  | cons ind rem IH =>
    intro i1 K st x hst hrem hb
    have hA := fcAtom_spec F h r1d i1 ind K st x hst (hrem ind (List.mem_cons_self ind rem))
    have hlenK : (fcAtom F h r1d i1 ind K st).1.length = K.length := by
      rw [hA.2]
      simp [List.length_set]
    have hKlt : 3 * i1 + 2 < K.length := by
      simp only [List.length_cons] at hb
      omega
    have hIH := IH (i1 + 1) (fcAtom F h r1d i1 ind K st).1 (fcAtom F h r1d i1 ind K st).2 x
      hA.1 (fun j hj => hrem j (List.mem_cons_of_mem _ hj))
      (by
        rw [hlenK]
        simp only [List.length_cons] at hb
        omega)
    have hunfold : fcLoop F h r1d (ind :: rem) i1 K st
        = fcLoop F h r1d rem (i1 + 1) (fcAtom F h r1d i1 ind K st).1
            (fcAtom F h r1d i1 ind K st).2 := rfl
    rw [hunfold]
    refine ⟨hIH.1, by rw [hIH.2.1, hlenK], ?_, ?_, ?_⟩
    · intro m hm d hd
      rcases m with _ | m
      · have hrow := hIH.2.2.2.1 (3 * (i1 + 0) + d) (by omega)
        rw [hrow, hA.2]
        have e1 : ((ind :: rem).getD 0 0) = ind := rfl
        rw [e1]
        interval_cases d
        · have hne2 : 3 * i1 + 2 ≠ 3 * i1 + 0 := by omega
          have hne1 : 3 * i1 + 1 ≠ 3 * i1 + 0 := by omega
          rw [show 3 * (i1 + 0) + 0 = 3 * i1 + 0 by omega]
          rw [getD_set_neq _ _ _ _ _ hne2, getD_set_neq _ _ _ _ _ hne1]
          exact getD_set_self _ _ _ _ (by omega)
        · have hne2 : 3 * i1 + 2 ≠ 3 * i1 + 1 := by omega
          rw [show 3 * (i1 + 0) + 1 = 3 * i1 + 1 by omega]
          rw [getD_set_neq _ _ _ _ _ hne2]
          exact getD_set_self _ _ _ _ (by simp [List.length_set]; omega)
        · rw [show 3 * (i1 + 0) + 2 = 3 * i1 + 2 by omega]
          exact getD_set_self _ _ _ _ (by simp [List.length_set]; omega)
      · have hm2 : m < rem.length := by
          simp only [List.length_cons] at hm
          omega
        have := hIH.2.2.1 m hm2 d hd
        rw [show 3 * (i1 + (m + 1)) + d = 3 * ((i1 + 1) + m) + d by omega]
        rw [this]
        rfl
    · intro r hr
      rw [hIH.2.2.2.1 r (by omega), hA.2]
      rw [getD_set_neq _ _ _ _ _ (by omega), getD_set_neq _ _ _ _ _ (by omega),
        getD_set_neq _ _ _ _ _ (by omega)]
    · intro row hrow
      rcases hIH.2.2.2.2 row hrow with hmem | hcd
      · rw [hA.2] at hmem
        rcases List.mem_or_eq_of_mem_set hmem with hmem2 | rfl
        · rcases List.mem_or_eq_of_mem_set hmem2 with hmem3 | rfl
          · rcases List.mem_or_eq_of_mem_set hmem3 with hmem4 | rfl
            · exact Or.inl hmem4
            · exact Or.inr ⟨_, rfl⟩
          · exact Or.inr ⟨_, rfl⟩
        · exact Or.inr ⟨_, rfl⟩
      · exact Or.inr hcd


/-- C5: for every left-side atom position `i1` and direction `d ∈ {0,1,2}`,
`fcCalc` sets row `3*i1 + d` of `Kij` to
`(F(+hstep)[right_dofs] - F(-hstep)[right_dofs]) / (2*hstep)`, where the force
vectors are the collaborator's responses after perturbing that single
coordinate of the unperturbed configuration by `+hstep` and `-hstep`; after
each direction the perturbed coordinate is restored exactly (final
coordinates equal the initial ones, and each single direction restores its
state), and the matrix has shape `(3*|inds_left|, 3*|inds_right|)`. -/
theorem c5_fc_central_difference (F : List ℚ → List ℚ) (L R : List ℕ) (h : ℚ)
    (x f0 : List ℚ)
    (hidx : ∀ i ∈ L, 3 * i + 2 < x.length) :
    (fcCalcModel F L R h ⟨x, f0⟩).2.coords = x ∧
    (fcCalcModel F L R h ⟨x, f0⟩).1.length = 3 * L.length ∧
    (∀ row ∈ (fcCalcModel F L R h ⟨x, f0⟩).1, row.length = 3 * R.length) ∧
    (∀ i1, i1 < L.length → ∀ d, d < 3 →
      (fcCalcModel F L R h ⟨x, f0⟩).1.getD (3 * i1 + d) []
        = centralDiffRow F x h (inds_right_1d R) (3 * (L.getD i1 0) + d)) ∧
    ∀ (st : LmpState) (index : ℕ), index < st.coords.length →
      (fcDirection F h (inds_right_1d R) st index).2.coords = st.coords := by
  have hr1d : (inds_right_1d R).length = 3 * R.length := by
    unfold inds_right_1d
    rw [List.length_mergeSort]
    simp only [List.length_append, List.length_map]
    omega
  have hs := fcLoop_spec F h (inds_right_1d R) L 0
    (List.replicate (L.length * 3) (List.replicate (R.length * 3) 0)) ⟨x, f0⟩ x rfl hidx
    (by
      rw [List.length_replicate]
      omega)
  have hcdlen : ∀ index, (centralDiffRow F x h (inds_right_1d R) index).length
      = 3 * R.length := by
    intro index
    unfold centralDiffRow gatherSel
    rw [List.length_zipWith, List.length_map, List.length_map, min_self, hr1d]
  unfold fcCalcModel
  refine ⟨hs.1, ?_, ?_, ?_, fun st index hi => (fcDirection_spec F h (inds_right_1d R) st index hi).2⟩
  · rw [hs.2.1, List.length_replicate]
    omega
  · intro row hrow
    rcases hs.2.2.2.2 row hrow with hmem | ⟨index, rfl⟩
    · rw [List.eq_of_mem_replicate hmem, List.length_replicate]
      omega
    · exact hcdlen index
  · intro i1 hi1 d hd
    have := hs.2.2.1 i1 hi1 d hd
    rw [show 3 * (0 + i1) + d = 3 * i1 + d by omega] at this
    exact this

/-- Witness for `c5_fc_central_difference`: two atoms, one left (`index 0`)
and one right (`index 1`), with the identity force law and `hstep = 1`. -/
theorem c5_fc_witness :
    (fcCalcModel (fun c => c) [0] [1] 1 ⟨[1, 2, 3, 4, 5, 6], []⟩).2.coords
        = [1, 2, 3, 4, 5, 6] ∧
      (fcCalcModel (fun c => c) [0] [1] 1 ⟨[1, 2, 3, 4, 5, 6], []⟩).1.length = 3 := by
  have hh := c5_fc_central_difference (fun c => c) [0] [1] 1 [1, 2, 3, 4, 5, 6] []
    (by decide)
  refine ⟨hh.1, ?_⟩
  rw [hh.2.1]
  rfl


/-! Embedding of the keyword-argument loop of `SHCPostProc.__init__`
(SHCPostProc.py, lines 54-88).  A Python attribute value is modelled by
`PyVal`; the instance dictionary by an association list whose lookup sees the
most recent binding first (`setattr` prepends); `hasattr` consults the
instance dictionary and the attributes of the class (its methods).  Dunder
attributes inherited from `object` are outside the model. -/

inductive PyVal where
  | pynone
  | num (q : ℚ)
  | str (s : String)
  | bool (b : Bool)
deriving DecidableEq

/-- The instance attributes set by lines 56-82, with their initial values,
before the keyword loop runs. -/
def instanceAttrs (cvf kfp : String) (rv rf : Bool) : List (String × PyVal) :=
  [("compactVelocityFile", PyVal.str cvf), ("KijFilePrefix", PyVal.str kfp),
   ("dt_md", PyVal.num 1), ("scaleFactor", PyVal.num 1),
   ("LAMMPSDumpFile", PyVal.pynone), ("LAMMPSRestartFile", PyVal.pynone),
   ("widthWin", PyVal.num 1), ("chunkSize", PyVal.num 50000),
   ("NChunks", PyVal.num 20), ("backupPrefix", PyVal.pynone),
   ("hstep", PyVal.num (1 / 1000)), ("reCalcVels", PyVal.bool rv),
   ("reCalcFC", PyVal.bool rf), ("Kij", PyVal.pynone), ("ids_L", PyVal.pynone),
   ("ids_R", PyVal.pynone), ("NL", PyVal.pynone), ("NR", PyVal.pynone),
   ("SHC_smooth", PyVal.pynone), ("SHC_smooth2", PyVal.pynone),
   ("SHC_average", PyVal.pynone), ("SHC_error", PyVal.pynone),
   ("oms_fft", PyVal.pynone)]

/-- The names of the instance attributes above. -/
def instanceAttrNames : List String :=
  ["compactVelocityFile", "KijFilePrefix", "dt_md", "scaleFactor", "LAMMPSDumpFile",
   "LAMMPSRestartFile", "widthWin", "chunkSize", "NChunks", "backupPrefix", "hstep",
   "reCalcVels", "reCalcFC", "Kij", "ids_L", "ids_R", "NL", "NR", "SHC_smooth",
   "SHC_smooth2", "SHC_average", "SHC_error", "oms_fft"]

/-- The attributes contributed by the class body: its methods. -/
def classAttrs : List String :=
  ["__init__", "__enter__", "__exit__", "_calcFC", "_loadFC", "_compactVels",
   "_smoothen", "postProcess"]

/-- Every attribute name of a fresh `SHCPostProc` object (within the model). -/
def attrNames : List String := instanceAttrNames ++ classAttrs

/-- Source: `hasattr(self, key)`: the key is in the instance dictionary or is a class
attribute. -/
def hasattrP (d : List (String × PyVal)) (k : String) : Prop :=
  (d.lookup k).isSome = true ∨ k ∈ classAttrs

instance (d : List (String × PyVal)) (k : String) : Decidable (hasattrP d k) := by
  unfold hasattrP
  infer_instance

/-- The keyword loop (lines 84-88): for each `(key, value)`, raise
`ValueError` when `hasattr` fails, otherwise `setattr` (prepend the binding)
and continue. -/
def applyKwargs (kwargs : List (String × PyVal)) (d : List (String × PyVal)) :
    Except String (List (String × PyVal)) :=
  match kwargs with
  | [] => Except.ok d
  | (k, v) :: rest =>
    if hasattrP d k then applyKwargs rest ((k, v) :: d)
    else Except.error ("Invalid argument " ++ k ++ " to PostProc!")

/-- A dictionary whose `hasattr` set is exactly `attrNames`. -/
def attrsComplete (d : List (String × PyVal)) : Prop :=
  ∀ k : String, hasattrP d k ↔ k ∈ attrNames

/-- A lookup succeeds exactly when the key occurs in the dictionary. -/
theorem lookup_isSome_iff (l : List (String × PyVal)) (k : String) :
    (l.lookup k).isSome = true ↔ k ∈ l.map Prod.fst := by
  induction l with
  | nil => simp [List.lookup]
  | cons p rest ih =>
    rcases p with ⟨a, b⟩
    by_cases hk : k = a
    · subst hk
      simp [List.lookup]
    · have hba : (k == a) = false := by simpa using hk
      simp [List.lookup, hba, ih, hk]

/-- The fresh instance dictionary answers `hasattr` exactly on `attrNames`. -/
theorem instanceAttrs_complete (cvf kfp : String) (rv rf : Bool) :
    attrsComplete (instanceAttrs cvf kfp rv rf) := by
  intro k
  unfold hasattrP attrNames
  rw [lookup_isSome_iff,
    show (instanceAttrs cvf kfp rv rf).map Prod.fst = instanceAttrNames from rfl,
    List.mem_append]


/-- Source: `setattr` with an existing attribute name keeps the `hasattr` set. -/
theorem attrsComplete_cons (d : List (String × PyVal)) (k0 : String) (v0 : PyVal)
    (hd : attrsComplete d) (hk0 : k0 ∈ attrNames) :
    attrsComplete ((k0, v0) :: d) := by
  intro k
  unfold hasattrP
  by_cases hk : k = k0
  · subst hk
    simp [List.lookup, hk0]
  · have hba : (k == k0) = false := by simpa using hk
    simp only [List.lookup, hba]
    exact hd k

/-- The keyword loop succeeds if and only if every keyword names an existing
attribute. -/
theorem applyKwargs_ok_iff :
    ∀ (kwargs : List (String × PyVal)) (d : List (String × PyVal)), attrsComplete d →
      ((applyKwargs kwargs d).isOk = true ↔ ∀ kv ∈ kwargs, kv.1 ∈ attrNames) := by
  intro kwargs
  induction kwargs with
  | nil =>
    intro d _hd
    simp [applyKwargs, Except.isOk, Except.toBool]
  | cons kv rest ih =>
    intro d hd
    rcases kv with ⟨k, v⟩
    unfold applyKwargs
    by_cases hk : hasattrP d k
    · rw [if_pos hk, ih ((k, v) :: d) (attrsComplete_cons d k v hd ((hd k).mp hk))]
      simp only [List.mem_cons]
      constructor
      · intro hall kv hkv
        rcases hkv with rfl | hkv
        · exact (hd k).mp hk
        · exact hall kv hkv
      · intro hall kv hkv
        exact hall kv (Or.inr hkv)
    · rw [if_neg hk]
      constructor
      · intro habs
        exact absurd habs (by simp [Except.isOk, Except.toBool])
      · intro hall
        exact absurd ((hd k).mpr (hall (k, v) (List.mem_cons_self _ _))) hk

/-- Keys never mentioned in the remaining keywords keep their binding. -/
theorem applyKwargs_lookup_frozen :
    ∀ (kwargs : List (String × PyVal)) (d d' : List (String × PyVal)),
      applyKwargs kwargs d = Except.ok d' →
      ∀ k : String, k ∉ kwargs.map Prod.fst → d'.lookup k = d.lookup k := by
  intro kwargs
  induction kwargs with
  | nil =>
    intro d d' h k _
    cases h
    rfl
  | cons kv rest ih =>
    intro d d' h k hk
    rcases kv with ⟨k0, v0⟩
    unfold applyKwargs at h
    split at h
    · have hk0 : k ≠ k0 := by
        intro hkeq
        exact hk (by simp [hkeq])
      have := ih ((k0, v0) :: d) d' h k (by
        intro hmem
        exact hk (by simp [hmem]))
      rw [this]
      have hba : (k == k0) = false := by simpa using hk0
      simp [List.lookup, hba]
    · exact Except.noConfusion h

/-- With distinct keyword names, each keyword's value is the final binding of
its attribute (silent overwrite). -/
theorem applyKwargs_lookup :
    ∀ (kwargs : List (String × PyVal)) (d : List (String × PyVal)),
      (kwargs.map Prod.fst).Nodup →
      ∀ d', applyKwargs kwargs d = Except.ok d' →
        ∀ k v, (k, v) ∈ kwargs → d'.lookup k = some v := by
  intro kwargs
  induction kwargs with
  | nil =>
    intro d _ d' _ k v hkv
    exact absurd hkv (List.not_mem_nil _)
  | cons kv0 rest ih =>
    intro d hnd d' h k v hkv
    rcases kv0 with ⟨k0, v0⟩
    simp only [List.map_cons, List.nodup_cons] at hnd
    unfold applyKwargs at h
    split at h
    · rcases List.mem_cons.mp hkv with heq | hkv2
      · injection heq with h1 h2
        subst h1
        subst h2
        rw [applyKwargs_lookup_frozen rest ((k, v) :: d) d' h k hnd.1]
        simp [List.lookup]
      · exact ih ((k0, v0) :: d) hnd.2 d' h k v hkv2
    · exact Except.noConfusion h


/-- C9: the constructor's keyword loop raises `ValueError` if and only if
some keyword's name is not an already-existing attribute of the object
(instance attribute or class method in the model); every name that matches
an existing attribute — including internal state such as `Kij`, `ids_L`,
`NL`, `SHC_smooth` or `oms_fft` — is accepted and its value silently
overwrites that attribute. -/
theorem c9_kwargs_accept_iff (cvf kfp : String) (rv rf : Bool)
    (kwargs : List (String × PyVal)) :
    ((applyKwargs kwargs (instanceAttrs cvf kfp rv rf)).isOk = true ↔
        ∀ kv ∈ kwargs, kv.1 ∈ attrNames) ∧
    ((kwargs.map Prod.fst).Nodup →
      ∀ d', applyKwargs kwargs (instanceAttrs cvf kfp rv rf) = Except.ok d' →
        ∀ k v, (k, v) ∈ kwargs → d'.lookup k = some v) :=
  ⟨applyKwargs_ok_iff kwargs _ (instanceAttrs_complete cvf kfp rv rf),
   fun hnd d' h k v hkv => applyKwargs_lookup kwargs _ hnd d' h k v hkv⟩

/-- Witness for `c9_kwargs_accept_iff`: passing the internal attributes
`Kij` and `NL` as keywords is accepted, and `Kij` ends up overwritten. -/
theorem c9_kwargs_witness :
    (applyKwargs [("Kij", PyVal.num 2), ("NL", PyVal.num 7)]
        (instanceAttrs "v.dat" "K" false false)).isOk = true ∧
    ∀ d', applyKwargs [("Kij", PyVal.num 2), ("NL", PyVal.num 7)]
        (instanceAttrs "v.dat" "K" false false) = Except.ok d' →
      d'.lookup "Kij" = some (PyVal.num 2) := by
  have h := c9_kwargs_accept_iff "v.dat" "K" false false
    [("Kij", PyVal.num 2), ("NL", PyVal.num 7)]
  refine ⟨h.1.mpr ?_, fun d' hd' => h.2 ?_ d' hd' "Kij" (PyVal.num 2) ?_⟩
  · intro kv hkv
    simp only [List.mem_cons, List.not_mem_nil, or_false] at hkv
    rcases hkv with rfl | rfl <;> decide
  · decide
  · exact List.mem_cons_self _ _

end
